import Mathlib

/-!
Verification of the mini-lsm storage engine core against its specification.

The Rust sources are embedded shallowly:
* byte strings (`&[u8]`) become `List Nat` with lexicographic comparison
  mirroring `Ord for [u8]`;
* `u16`/`u32` fields are `Nat` with explicit `% 2^16` / `% 2^32` where the
  code truncates;
* fallible operations return `Except` / an explicit `panic` constructor;
* loops become fuel-indexed structural recursions (the fuel is always larger
  than the loop's iteration count, which each proof establishes).
-/

namespace MiniLsm

/-- Byte strings (`Vec<u8>` / `&[u8]`) as lists of naturals. -/
abbrev Bytes := List Nat

/-- Lexicographic comparison of byte slices, mirroring Rust's
`Ord for [u8]`: compare element-wise, ties broken by length. -/
def byteCmp : Bytes → Bytes → Ordering
  | [], [] => .eq
  | [], _ :: _ => .lt
  | _ :: _, [] => .gt
  | a :: as, b :: bs =>
    if a < b then .lt else if b < a then .gt else byteCmp as bs

/-- `a < b` in byte order. -/
def bLt (a b : Bytes) : Prop := byteCmp a b = .lt

/-- `a ≤ b` in byte order. -/
def bLe (a b : Bytes) : Prop := byteCmp a b ≠ .gt

instance : DecidableEq Ordering := fun a b => by
  cases a <;> cases b <;> first
    | exact isTrue rfl
    | exact isFalse (by intro h; cases h)

instance (a b : Bytes) : Decidable (bLt a b) :=
  inferInstanceAs (Decidable (byteCmp a b = .lt))

instance (a b : Bytes) : Decidable (bLe a b) :=
  inferInstanceAs (Decidable (byteCmp a b ≠ .gt))

theorem byteCmp_eq_iff : ∀ {a b : Bytes}, byteCmp a b = .eq ↔ a = b := by
  intro a
  induction a with
  | nil => intro b; cases b <;> simp [byteCmp]
  | cons x as ih =>
    intro b
    cases b with
    | nil => simp [byteCmp]
    | cons y bs =>
      simp only [byteCmp]
      split
      · next h => simp; omega
      · split
        · next h1 h2 => simp; omega
        · next h1 h2 =>
          have hxy : x = y := by omega
          subst hxy
          simp [ih]

theorem byteCmp_self (a : Bytes) : byteCmp a a = .eq := byteCmp_eq_iff.mpr rfl

/-- Swapping the arguments swaps the ordering. -/
theorem byteCmp_swap : ∀ a b : Bytes, byteCmp b a = (byteCmp a b).swap := by
  intro a
  induction a with
  | nil => intro b; cases b <;> simp [byteCmp, Ordering.swap]
  | cons x as ih =>
    intro b
    cases b with
    | nil => simp [byteCmp, Ordering.swap]
    | cons y bs =>
      by_cases h1 : x < y
      · have h2 : ¬ y < x := by omega
        simp [byteCmp, h1, h2, Ordering.swap]
      · by_cases h2 : y < x
        · simp [byteCmp, h1, h2, Ordering.swap]
        · simp [byteCmp, h1, h2, Ordering.swap, ih bs]

theorem byteCmp_gt_iff {a b : Bytes} : byteCmp a b = .gt ↔ bLt b a := by
  unfold bLt
  rw [byteCmp_swap a b]
  cases byteCmp a b <;> simp [Ordering.swap]

theorem bLt_trans : ∀ {a b c : Bytes}, bLt a b → bLt b c → bLt a c := by
  unfold bLt
  intro a
  induction a with
  | nil =>
    intro b c hab hbc
    cases b with
    | nil => cases hab
    | cons y bs => cases c with
      | nil => cases hbc
      | cons z cs => simp [byteCmp]
  | cons x as ih =>
    intro b c hab hbc
    cases b with
    | nil => cases hab
    | cons y bs =>
      cases c with
      | nil => cases hbc
      | cons z cs =>
        simp only [byteCmp] at hab hbc ⊢
        by_cases hxy : x < y
        · by_cases hyz : y < z
          · simp [show x < z by omega]
          · by_cases hzy : z < y
            · simp [hyz, hzy] at hbc
            · have : y = z := by omega
              subst this
              simp [hxy]
        · by_cases hyx : y < x
          · simp [hxy, hyx] at hab
          · have hxy' : x = y := by omega
            subst hxy'
            simp [show ¬ x < x by omega] at hab
            by_cases hyz : x < z
            · simp [hyz]
            · by_cases hzy : z < x
              · simp [hyz, hzy] at hbc
              · have : x = z := by omega
                subst this
                simp [show ¬ x < x by omega] at hbc ⊢
                exact ih hab hbc

theorem bLt_irrefl (a : Bytes) : ¬ bLt a a := by
  unfold bLt
  rw [byteCmp_self]
  intro h; cases h

theorem bLt_ne {a b : Bytes} (h : bLt a b) : a ≠ b := by
  intro he
  subst he
  exact bLt_irrefl a h

/-- Trichotomy through the comparison function. -/
theorem byteCmp_cases (a b : Bytes) :
    (byteCmp a b = .lt ∧ bLt a b) ∨ (byteCmp a b = .eq ∧ a = b) ∨
    (byteCmp a b = .gt ∧ bLt b a) := by
  rcases h : byteCmp a b with _ | _ | _
  · exact Or.inl ⟨rfl, h⟩
  · exact Or.inr (Or.inl ⟨rfl, byteCmp_eq_iff.mp h⟩)
  · exact Or.inr (Or.inr ⟨rfl, byteCmp_gt_iff.mp h⟩)

theorem bLe_iff {a b : Bytes} : bLe a b ↔ a = b ∨ bLt a b := by
  unfold bLe
  rcases byteCmp_cases a b with ⟨h, hl⟩ | ⟨h, he⟩ | ⟨h, hg⟩
  · rw [h]; simp [hl]
  · rw [h]; simp [he]
  · rw [h]
    simp only [ne_eq, not_true_eq_false, false_iff]
    push_neg
    constructor
    · intro he; subst he; exact bLt_irrefl a hg
    · intro hl; exact bLt_irrefl a (bLt_trans hl hg)

theorem bLt_of_bLe_of_bLt {a b c : Bytes} (h1 : bLe a b) (h2 : bLt b c) : bLt a c := by
  rcases bLe_iff.mp h1 with he | hl
  · subst he; exact h2
  · exact bLt_trans hl h2

theorem not_bLt_iff {a b : Bytes} : ¬ bLt a b ↔ bLe b a := by
  rcases byteCmp_cases a b with ⟨h, hl⟩ | ⟨h, he⟩ | ⟨h, hg⟩
  · simp only [hl, not_true_eq_false, false_iff]
    intro hle
    rcases bLe_iff.mp hle with he | hlt
    · rw [he] at hl; exact bLt_irrefl a hl
    · exact bLt_irrefl a (bLt_trans hl hlt)
  · subst he
    simp [bLt_irrefl, bLe_iff]
  · constructor
    · intro _; exact bLe_iff.mpr (Or.inr hg)
    · intro _ hl; exact bLt_irrefl a (bLt_trans hl hg)

/-! ## Block encoding (src/block.rs) -/

/-- Big-endian 2-byte encoding of `n` truncated to `u16`
(Rust `buf.put_u16(n as u16)`). -/
def put16 (n : Nat) : Bytes := [n % 65536 / 256, n % 256]

/-- Big-endian read of the first two bytes (Rust `get_u16`). -/
def get16 : Bytes → Nat
  | b0 :: b1 :: _ => 256 * b0 + b1
  | [b0] => 256 * b0
  | [] => 0

theorem get16_put16_append (n : Nat) (r : Bytes) :
    get16 (put16 n ++ r) = n % 65536 := by
  simp only [put16, get16, List.cons_append, List.nil_append]
  omega

theorem put16_length (n : Nat) : (put16 n).length = 2 := rfl

/-- `Block` from src/block.rs: raw entry bytes plus the entry offsets
(`offsets: Vec<u16>`, so each stored offset is already reduced mod 2^16). -/
structure Block where
  data : Bytes
  offsets : List Nat
deriving DecidableEq

/-- `Block::encode`: data section, then each offset as big-endian u16,
then the entry count as u16. -/
def Block.encode (b : Block) : Bytes :=
  b.data ++ (b.offsets.map put16).flatten ++ put16 b.offsets.length

/-- Result of running `Block::decode`, which returns a `Block` in Rust and can
only fail by panicking (index underflow / slice out of bounds); there is no
error channel in its signature. -/
inductive DecodeResult
  | ok (b : Block)
  | panicked
deriving DecidableEq

/-- Parse a byte region as consecutive big-endian u16 values
(Rust `.chunks(SIZEOF_U16).map(|mut x| x.get_u16())`; the region produced by
`decode` always has even length, so the one-byte-chunk case is unreachable). -/
def chunks16 : Bytes → List Nat
  | b0 :: b1 :: rest => (256 * b0 + b1) :: chunks16 rest
  | [b0] => [256 * b0]
  | [] => []

/-- `Block::decode`. The Rust code computes `data.len() - SIZEOF_U16` and
`data.len() - (len + 1) * SIZEOF_U16` with unchecked `usize` subtraction;
when either underflows the slice indexing panics, which the model records as
`DecodeResult.panicked`. -/
def Block.decode (data : Bytes) : DecodeResult :=
  if data.length < 2 then .panicked
  else
    let len := get16 (data.drop (data.length - 2))
    if data.length < (len + 1) * 2 then .panicked
    else
      let dataEnd := data.length - (len + 1) * 2
      let offsets := chunks16 ((data.drop dataEnd).take (len * 2))
      .ok ⟨data.take dataEnd, offsets⟩

/-- Modelled from the spec: `Block::size` (absent from src/) is "the byte
length of the encoded form": data section + one u16 per offset + the u16
entry count. -/
def Block.size (b : Block) : Nat := b.data.length + 2 * b.offsets.length + 2

theorem Block.encode_length (b : Block) : b.encode.length = b.size := by
  have h : ((b.offsets.map put16).map List.length).sum = 2 * b.offsets.length := by
    induction b.offsets with
    | nil => simp
    | cons x xs ih => simp only [List.map_cons, List.sum_cons, put16_length,
        List.length_cons, ih]; ring
  simp only [Block.encode, Block.size, List.length_append, List.length_flatten, h,
    put16_length]

/-! ## BlockBuilder (src/block/builder.rs) -/

/-- Entry list of a `BTreeMap<Vec<u8>, Vec<u8>>`: a key-sorted association
list; `insert` replaces the binding of an equal key. -/
def mapInsert (k v : Bytes) : List (Bytes × Bytes) → List (Bytes × Bytes)
  | [] => [(k, v)]
  | (k', v') :: rest =>
    match byteCmp k k' with
    | .lt => (k, v) :: (k', v') :: rest
    | .eq => (k, v) :: rest
    | .gt => (k', v') :: mapInsert k v rest

/-- `BTreeMap::get`. -/
def mapGet (k : Bytes) : List (Bytes × Bytes) → Option Bytes
  | [] => none
  | (k', v') :: rest => if k = k' then some v' else mapGet k rest

/-- `BlockBuilder` from src/block/builder.rs. -/
structure BlockBuilder where
  cap : Nat
  size : Nat
  map : List (Bytes × Bytes)
deriving DecidableEq

/-- `BlockBuilder::new`: the initial size is `SIZEOF_U16` (the entry-count
footer). -/
def BlockBuilder.new (blockSize : Nat) : BlockBuilder :=
  ⟨blockSize, 2, []⟩

/-- `BlockBuilder::is_empty`. -/
def BlockBuilder.isEmpty (b : BlockBuilder) : Bool := b.map.isEmpty

/-- `BlockBuilder::add`; returns the updated builder and the `bool` result.
The replace-path size `(size + value.len - old.len)` never underflows in
states reachable from `new`, so plain `Nat` subtraction is faithful. -/
def BlockBuilder.add (b : BlockBuilder) (key value : Bytes) : BlockBuilder × Bool :=
  let newSize :=
    match mapGet key b.map with
    | some old => b.size + value.length - old.length
    | none => b.size + key.length + value.length + 2 * 3
  if b.cap < newSize ∧ b.map ≠ [] then (b, false)
  else ({ b with map := mapInsert key value b.map, size := newSize }, true)

/-- `BlockBuilder::build`: serialize the map entries in order, recording each
entry's starting offset (`data.len() as u16`) before appending it. -/
def BlockBuilder.build (b : BlockBuilder) : Block :=
  b.map.foldl
    (fun acc kv =>
      { data := acc.data ++ put16 kv.1.length ++ kv.1 ++ put16 kv.2.length ++ kv.2,
        offsets := acc.offsets ++ [acc.data.length % 65536] })
    ⟨[], []⟩

/-! ## C4: Block::decode on short buffers -/

/-- The spec's "buffer shorter than the structure implied by its trailing
entry count": fewer than two bytes, or shorter than the
`(count + 1) * sizeof(u16)` bytes the footer implies. -/
def impliedShort (data : Bytes) : Prop :=
  data.length < 2 ∨ data.length < (get16 (data.drop (data.length - 2)) + 1) * 2

instance (data : Bytes) : Decidable (impliedShort data) :=
  inferInstanceAs (Decidable (_ ∨ _))

/-- C4 (counterexample): the claim says a too-short buffer makes
`Block::decode` "fail with an error returned to the caller rather than
proceeding or aborting".  The Rust signature `fn decode(data: &[u8]) -> Self`
has no error channel: on the one-byte buffer `[0]` the subtraction
`data.len() - SIZEOF_U16` underflows and the function aborts by panicking,
modelled as `DecodeResult.panicked`; no error value is returned. -/
theorem C4_decode_short_counterexample :
    Block.decode [0] = DecodeResult.panicked := by decide

/-- C4 (amended): for every input buffer shorter than the structure implied
by its trailing entry count (including buffers of fewer than two bytes),
`Block::decode` panics — it aborts the operation rather than proceeding or
returning a block; no error value is returned to the caller. -/
theorem C4_decode_short_panics (data : Bytes) (h : impliedShort data) :
    Block.decode data = DecodeResult.panicked := by
  unfold Block.decode
  rcases h with h | h
  · rw [if_pos h]
  · by_cases h2 : data.length < 2
    · rw [if_pos h2]
    · rw [if_neg h2]
      simp only []
      rw [if_pos h]

/-- Witness for C4: the two-byte buffer `[0, 3]` announces 3 entries, which
would require 8 bytes, so it is short and `decode` panics on it. -/
theorem C4_decode_short_panics_witness :
    impliedShort [0, 3] ∧ Block.decode [0, 3] = DecodeResult.panicked :=
  ⟨by decide, C4_decode_short_panics [0, 3] (by decide)⟩

/-! ## Entry serialization helpers -/

/-- The serialized form of one entry:
`u16 key_len | key | u16 value_len | value`. -/
def encodeEntry (kv : Bytes × Bytes) : Bytes :=
  put16 kv.1.length ++ kv.1 ++ put16 kv.2.length ++ kv.2

/-- The data section produced by serializing entries in order. -/
def encodeEntries (es : List (Bytes × Bytes)) : Bytes :=
  (es.map encodeEntry).flatten

/-- Entry start offsets as recorded by `BlockBuilder::build`
(`data.len() as u16` just before appending each entry). -/
def entryOffsetsFrom (base : Nat) : List (Bytes × Bytes) → List Nat
  | [] => []
  | e :: es => (base % 65536) :: entryOffsetsFrom (base + (encodeEntry e).length) es

def entryOffsets (es : List (Bytes × Bytes)) : List Nat := entryOffsetsFrom 0 es

/-- Byte length of the data section for the first `i` entries. -/
def prefixSize (es : List (Bytes × Bytes)) (i : Nat) : Nat :=
  (encodeEntries (es.take i)).length

theorem encodeEntry_length (kv : Bytes × Bytes) :
    (encodeEntry kv).length = 4 + kv.1.length + kv.2.length := by
  simp [encodeEntry, put16_length]
  omega

theorem encodeEntries_nil : encodeEntries [] = [] := rfl

theorem encodeEntries_cons (e : Bytes × Bytes) (es : List (Bytes × Bytes)) :
    encodeEntries (e :: es) = encodeEntry e ++ encodeEntries es := by
  simp [encodeEntries]

theorem entryOffsetsFrom_length (base : Nat) (es : List (Bytes × Bytes)) :
    (entryOffsetsFrom base es).length = es.length := by
  induction es generalizing base with
  | nil => rfl
  | cons e es ih => simp [entryOffsetsFrom, ih]

theorem entryOffsets_length (es : List (Bytes × Bytes)) :
    (entryOffsets es).length = es.length := entryOffsetsFrom_length 0 es

/-- `BlockBuilder.build` produces exactly the serialized entries with their
offsets. -/
theorem BlockBuilder.build_eq (b : BlockBuilder) :
    b.build = ⟨encodeEntries b.map, entryOffsets b.map⟩ := by
  have step : ∀ (es : List (Bytes × Bytes)) (d : Bytes) (o : List Nat),
      List.foldl
        (fun (acc : Block) (kv : Bytes × Bytes) =>
          { data := acc.data ++ put16 kv.1.length ++ kv.1 ++ put16 kv.2.length ++ kv.2,
            offsets := acc.offsets ++ [acc.data.length % 65536] })
        ⟨d, o⟩ es
      = ⟨d ++ encodeEntries es, o ++ entryOffsetsFrom d.length es⟩ := by
    intro es
    induction es with
    | nil => intro d o; simp [encodeEntries, entryOffsetsFrom]
    | cons e es ih =>
      intro d o
      simp only [List.foldl_cons, ih, encodeEntries_cons, entryOffsetsFrom,
        Block.mk.injEq]
      have hlen : (d ++ put16 e.1.length ++ e.1 ++ put16 e.2.length ++ e.2).length
          = d.length + (encodeEntry e).length := by
        simp [encodeEntry, put16_length]
      rw [hlen]
      simp [encodeEntry]
  have := step b.map [] []
  simpa [BlockBuilder.build, entryOffsets] using this

/-! ## BlockIterator (src/block/iterator.rs) -/

/-- `BlockIterator`: the cursor over a shared block.  An empty `key`
represents an invalid iterator. -/
structure BlockIterator where
  block : Block
  key : Bytes
  value : Bytes
  idx : Nat
deriving DecidableEq

/-- `BlockIterator::seek_to`: out-of-range clears key and value (leaving
`idx` untouched); otherwise parse the entry at `offsets[idx]`.  The
`take`-based parsing is total; for the well-formed blocks all theorems are
about, the lengths read never exceed the remaining bytes, matching the
panic-free Rust path. -/
def BlockIterator.seekTo (it : BlockIterator) (idx : Nat) : BlockIterator :=
  if it.block.offsets.length ≤ idx then
    { it with key := [], value := [] }
  else
    let offset := it.block.offsets.getD idx 0
    let entry0 := it.block.data.drop offset
    let keyLen := get16 entry0
    let entry1 := entry0.drop 2
    let key := entry1.take keyLen
    let entry2 := entry1.drop keyLen
    let valueLen := get16 entry2
    let value := (entry2.drop 2).take valueLen
    { it with idx := idx, key := key, value := value }

/-- `BlockIterator::seek_to_first`. -/
def BlockIterator.seekToFirst (it : BlockIterator) : BlockIterator := it.seekTo 0

/-- `BlockIterator::next`. -/
def BlockIterator.next (it : BlockIterator) : BlockIterator := it.seekTo (it.idx + 1)

/-- `BlockIterator::is_valid`. -/
def BlockIterator.isValid (it : BlockIterator) : Bool := !it.key.isEmpty

/-- The binary-search loop of `BlockIterator::seek_to_key`, fuel-indexed;
the fuel is always chosen larger than `hi - lo`, which bounds the number of
iterations. -/
def BlockIterator.seekToKeyAux : Nat → BlockIterator → Nat → Nat → Bytes → BlockIterator
  | 0, it, lo, _, _ => it.seekTo lo
  | fuel + 1, it, lo, hi, key =>
    if lo < hi then
      let mid := lo + (hi - lo) / 2
      let it' := it.seekTo mid
      match byteCmp it'.key key with
      | .lt => BlockIterator.seekToKeyAux fuel it' (mid + 1) hi key
      | .gt => BlockIterator.seekToKeyAux fuel it' lo mid key
      | .eq => it'
    else it.seekTo lo

/-- `BlockIterator::seek_to_key`. -/
def BlockIterator.seekToKey (it : BlockIterator) (key : Bytes) : BlockIterator :=
  BlockIterator.seekToKeyAux (it.block.offsets.length + 1) it 0
    it.block.offsets.length key

/-- `BlockIterator::create_and_seek_to_first`. -/
def BlockIterator.createAndSeekToFirst (b : Block) : BlockIterator :=
  BlockIterator.seekToFirst ⟨b, [], [], 0⟩

/-- `BlockIterator::create_and_seek_to_key`. -/
def BlockIterator.createAndSeekToKey (b : Block) (key : Bytes) : BlockIterator :=
  BlockIterator.seekToKey ⟨b, [], [], 0⟩ key

/-! ## Well-formed entry lists and the parsing lemmas -/

/-- An entry list is representable in the block format: non-empty keys, key
and value lengths below 2^16, every entry offset below 2^16, and an entry
count below 2^16. -/
def EntriesWF (es : List (Bytes × Bytes)) : Prop :=
  es.length < 65536 ∧
  (∀ e ∈ es, 0 < e.1.length ∧ e.1.length < 65536 ∧ e.2.length < 65536) ∧
  (∀ i < es.length, prefixSize es i < 65536)

instance (es : List (Bytes × Bytes)) : Decidable (EntriesWF es) :=
  inferInstanceAs (Decidable (_ ∧ _ ∧ _))

/-- Keys strictly ascending. -/
def SortedKeys (es : List (Bytes × Bytes)) : Prop :=
  List.Chain' (fun a b : Bytes × Bytes => bLt a.1 b.1) es

/-- Executable check for `SortedKeys`. -/
def sortedKeysB : List (Bytes × Bytes) → Bool
  | [] => true
  | [_] => true
  | a :: b :: rest => decide (bLt a.1 b.1) && sortedKeysB (b :: rest)

theorem sortedKeysB_iff : ∀ (es : List (Bytes × Bytes)),
    sortedKeysB es = true ↔ SortedKeys es
  | [] => by simp [sortedKeysB, SortedKeys]
  | [e] => by simp [sortedKeysB, SortedKeys]
  | a :: b :: rest => by
    rw [show sortedKeysB (a :: b :: rest)
        = (decide (bLt a.1 b.1) && sortedKeysB (b :: rest)) from rfl]
    rw [Bool.and_eq_true, decide_eq_true_eq, sortedKeysB_iff (b :: rest)]
    show _ ↔ List.Chain' _ (a :: b :: rest)
    rw [List.chain'_cons]
    exact Iff.rfl

instance (es : List (Bytes × Bytes)) : Decidable (SortedKeys es) :=
  decidable_of_iff _ (sortedKeysB_iff es)

/-- The block a builder with entry list `es` produces. -/
def blockOf (es : List (Bytes × Bytes)) : Block :=
  ⟨encodeEntries es, entryOffsets es⟩

theorem prefixSize_zero (es : List (Bytes × Bytes)) : prefixSize es 0 = 0 := rfl

theorem prefixSize_succ_cons (e : Bytes × Bytes) (es : List (Bytes × Bytes)) (i : Nat) :
    prefixSize (e :: es) (i + 1) = (encodeEntry e).length + prefixSize es i := by
  simp [prefixSize, List.take_succ_cons, encodeEntries_cons]

theorem entryOffsetsFrom_getD (base : Nat) (es : List (Bytes × Bytes)) (i : Nat)
    (h : i < es.length) :
    (entryOffsetsFrom base es).getD i 0 = (base + prefixSize es i) % 65536 := by
  induction es generalizing base i with
  | nil => exact absurd h (by simp)
  | cons e es ih =>
    cases i with
    | zero => simp [entryOffsetsFrom, prefixSize_zero]
    | succ i =>
      have h' : i < es.length := by simpa using h
      have := ih (base + (encodeEntry e).length) i h'
      simp only [entryOffsetsFrom, List.getD_cons_succ, this, prefixSize_succ_cons]
      ring_nf

theorem entryOffsets_getD (es : List (Bytes × Bytes)) (i : Nat)
    (h : i < es.length) (hlt : prefixSize es i < 65536) :
    (entryOffsets es).getD i 0 = prefixSize es i := by
  unfold entryOffsets
  rw [entryOffsetsFrom_getD 0 es i h]
  simp [Nat.mod_eq_of_lt hlt]

theorem encodeEntries_drop (es : List (Bytes × Bytes)) (i : Nat) (h : i ≤ es.length) :
    (encodeEntries es).drop (prefixSize es i) = encodeEntries (es.drop i) := by
  induction i generalizing es with
  | zero => simp [prefixSize_zero]
  | succ i ih =>
    cases es with
    | nil => exact absurd h (by simp)
    | cons e es =>
      have h' : i ≤ es.length := by simpa using h
      rw [prefixSize_succ_cons, encodeEntries_cons, List.drop_append (prefixSize es i),
        List.drop_succ_cons, ih es h']

theorem get16_encodeEntry (k v rest : Bytes) :
    get16 (encodeEntry (k, v) ++ rest) = k.length % 65536 := by
  have : encodeEntry (k, v) ++ rest
      = put16 k.length ++ (k ++ (put16 v.length ++ (v ++ rest))) := by
    simp [encodeEntry]
  rw [this, get16_put16_append]

theorem drop_two_put16 (n : Nat) (x : Bytes) : (put16 n ++ x).drop 2 = x := rfl

/-- Parsing the serialized entry at the front of a byte stream recovers the
key and value, provided the lengths fit in `u16`. -/
theorem seekTo_parse (es : List (Bytes × Bytes))
    (hwf : EntriesWF es) (kv vv : Bytes) (ix : Nat)
    (i : Nat) (h : i < es.length) :
    BlockIterator.seekTo ⟨blockOf es, kv, vv, ix⟩ i
      = ⟨blockOf es, (es.get ⟨i, h⟩).1, (es.get ⟨i, h⟩).2, i⟩ := by
  obtain ⟨hcount, hlens, hpre⟩ := hwf
  have hoff_len : (blockOf es).offsets.length = es.length := entryOffsets_length es
  have hnle : ¬ (blockOf es).offsets.length ≤ i := by omega
  unfold BlockIterator.seekTo
  rw [if_neg hnle]
  have hoff : (blockOf es).offsets.getD i 0 = prefixSize es i :=
    entryOffsets_getD es i h (hpre i h)
  simp only [hoff]
  have hsplit : es.drop i = es.get ⟨i, h⟩ :: es.drop (i + 1) := by
    rw [List.drop_eq_getElem_cons h]
    rfl
  have hdrop : (blockOf es).data.drop (prefixSize es i)
      = encodeEntry (es.get ⟨i, h⟩) ++ encodeEntries (es.drop (i + 1)) := by
    show (encodeEntries es).drop (prefixSize es i) = _
    rw [encodeEntries_drop es i (Nat.le_of_lt h), hsplit, encodeEntries_cons]
  obtain ⟨hk_pos, hk_lt, hv_lt⟩ := hlens (es.get ⟨i, h⟩) (List.get_mem es i h)
  have hassoc : encodeEntry (es.get ⟨i, h⟩) ++ encodeEntries (es.drop (i + 1))
      = put16 (es.get ⟨i, h⟩).1.length ++ ((es.get ⟨i, h⟩).1 ++
        (put16 (es.get ⟨i, h⟩).2.length ++ ((es.get ⟨i, h⟩).2 ++
          encodeEntries (es.drop (i + 1))))) := by
    simp [encodeEntry]
  rw [hdrop, hassoc]
  rw [get16_put16_append, Nat.mod_eq_of_lt hk_lt, drop_two_put16]
  rw [List.take_left, List.drop_left, drop_two_put16]
  rw [get16_put16_append, Nat.mod_eq_of_lt hv_lt, List.take_left]

/-- `seek_to` past the end clears key and value. -/
theorem seekTo_invalid (es : List (Bytes × Bytes)) (kv vv : Bytes) (ix : Nat)
    (i : Nat) (h : es.length ≤ i) :
    BlockIterator.seekTo ⟨blockOf es, kv, vv, ix⟩ i
      = ⟨blockOf es, [], [], ix⟩ := by
  have hoff_len : (blockOf es).offsets.length = es.length := entryOffsets_length es
  unfold BlockIterator.seekTo
  have hcond : (BlockIterator.mk (blockOf es) kv vv ix).block.offsets.length ≤ i := by
    show (blockOf es).offsets.length ≤ i
    omega
  rw [if_pos hcond]

/-- In a strictly sorted entry list, earlier keys are smaller. -/
theorem sortedKeys_get_lt (es : List (Bytes × Bytes)) (hsort : SortedKeys es)
    (i j : Nat) (hij : i < j) (hj : j < es.length) :
    bLt (es.get ⟨i, Nat.lt_trans hij hj⟩).1 (es.get ⟨j, hj⟩).1 := by
  have hp : List.Pairwise (fun a b : Bytes × Bytes => bLt a.1 b.1) es := by
    have : IsTrans (Bytes × Bytes) (fun a b : Bytes × Bytes => bLt a.1 b.1) :=
      ⟨fun _ _ _ hab hbc => bLt_trans hab hbc⟩
    exact List.chain'_iff_pairwise.mp hsort
  exact List.pairwise_iff_get.mp hp ⟨i, Nat.lt_trans hij hj⟩ ⟨j, hj⟩ hij

/-! ## C7: BlockIterator::seek_to_key -/

/-- The smallest index whose key is `≥ key` (the specification's target for
`seek_to_key`); equals the list length when every key is smaller. -/
def lowerBoundIdx (key : Bytes) : List (Bytes × Bytes) → Nat
  | [] => 0
  | e :: rest => if bLe key e.1 then 0 else lowerBoundIdx key rest + 1

theorem lowerBoundIdx_le_length (key : Bytes) (es : List (Bytes × Bytes)) :
    lowerBoundIdx key es ≤ es.length := by
  induction es with
  | nil => simp [lowerBoundIdx]
  | cons e rest ih =>
    simp only [lowerBoundIdx]
    split
    · simp
    · simpa using ih

theorem lowerBoundIdx_lt (key : Bytes) (es : List (Bytes × Bytes)) (j : Nat)
    (hj : j < es.length) (h : j < lowerBoundIdx key es) :
    bLt (es.get ⟨j, hj⟩).1 key := by
  induction es generalizing j with
  | nil => exact absurd hj (by simp)
  | cons e rest ih =>
    simp only [lowerBoundIdx] at h
    split at h
    · omega
    · next hn =>
      cases j with
      | zero =>
        simp only [List.get]
        by_contra hc
        exact hn (not_bLt_iff.mp hc)
      | succ j => exact ih j (by simpa using hj) (by omega)

theorem lowerBoundIdx_ge (key : Bytes) (es : List (Bytes × Bytes))
    (h : lowerBoundIdx key es < es.length) :
    bLe key (es.get ⟨lowerBoundIdx key es, h⟩).1 := by
  induction es with
  | nil => exact absurd h (by simp [lowerBoundIdx])
  | cons e rest ih =>
    by_cases hle : bLe key e.1
    · simp only [lowerBoundIdx, if_pos hle]
      exact hle
    · have hval : lowerBoundIdx key (e :: rest) = lowerBoundIdx key rest + 1 := by
        simp [lowerBoundIdx, hle]
      have h' : lowerBoundIdx key rest < rest.length := by
        rw [hval] at h
        simpa using h
      have := ih h'
      simp only [hval] at h ⊢
      exact this

theorem lowerBoundIdx_unique (key : Bytes) (es : List (Bytes × Bytes)) (i : Nat)
    (hi : i < es.length) (hge : bLe key (es.get ⟨i, hi⟩).1)
    (hlt : ∀ j (hj : j < es.length), j < i → bLt (es.get ⟨j, hj⟩).1 key) :
    lowerBoundIdx key es = i := by
  rcases Nat.lt_trichotomy (lowerBoundIdx key es) i with h | h | h
  · have hL := lowerBoundIdx_ge key es (Nat.lt_trans h hi)
    have := hlt (lowerBoundIdx key es) (Nat.lt_trans h hi) h
    exact absurd (bLt_of_bLe_of_bLt hL this) (bLt_irrefl key)
  · exact h
  · have := lowerBoundIdx_lt key es i hi h
    exact absurd (bLt_of_bLe_of_bLt hge this) (bLt_irrefl key)

theorem lowerBoundIdx_eq_length (key : Bytes) (es : List (Bytes × Bytes))
    (h : ∀ j (hj : j < es.length), bLt (es.get ⟨j, hj⟩).1 key) :
    lowerBoundIdx key es = es.length := by
  induction es with
  | nil => rfl
  | cons e rest ih =>
    have h0 := h 0 (by simp)
    have hn : ¬ bLe key e.1 := by
      intro hle
      exact absurd (bLt_of_bLe_of_bLt hle (by simpa using h0)) (bLt_irrefl key)
    simp only [lowerBoundIdx, if_neg hn, List.length_cons]
    have := ih (fun j hj => by
      have := h (j + 1) (by simpa using hj)
      simpa using this)
    omega

/-- Behaviour of the `seek_to_key` binary-search loop: under the standard
loop invariants it lands on the lower-bound index, or invalidates when every
key is smaller than the target. -/
theorem seekToKeyAux_spec (es : List (Bytes × Bytes)) (hwf : EntriesWF es)
    (hsort : SortedKeys es) (key : Bytes) :
    ∀ (fuel lo hi : Nat) (it : BlockIterator), it.block = blockOf es →
    hi - lo < fuel → lo ≤ hi → hi ≤ es.length →
    (∀ j (hj : j < es.length), j < lo → bLt (es.get ⟨j, hj⟩).1 key) →
    (∀ j (hj : j < es.length), hi ≤ j → bLt key (es.get ⟨j, hj⟩).1) →
    (∀ h : lowerBoundIdx key es < es.length,
      BlockIterator.seekToKeyAux fuel it lo hi key
        = ⟨blockOf es, (es.get ⟨lowerBoundIdx key es, h⟩).1,
            (es.get ⟨lowerBoundIdx key es, h⟩).2, lowerBoundIdx key es⟩) ∧
    (lowerBoundIdx key es = es.length →
      (BlockIterator.seekToKeyAux fuel it lo hi key).key = []) := by
  intro fuel
  induction fuel with
  | zero => intro lo hi it _ hfuel _ _ _ _; omega
  | succ fuel ih =>
    intro lo hi it hb hfuel hlohi hhi hlo hhiInv
    obtain ⟨b, kv, vv, ix⟩ := it
    simp only at hb
    subst hb
    by_cases hcase : lo < hi
    · rw [show BlockIterator.seekToKeyAux (fuel + 1) ⟨blockOf es, kv, vv, ix⟩ lo hi key
          = (if lo < hi then
              let mid := lo + (hi - lo) / 2
              let it' := BlockIterator.seekTo ⟨blockOf es, kv, vv, ix⟩ mid
              match byteCmp it'.key key with
              | .lt => BlockIterator.seekToKeyAux fuel it' (mid + 1) hi key
              | .gt => BlockIterator.seekToKeyAux fuel it' lo mid key
              | .eq => it'
            else BlockIterator.seekTo ⟨blockOf es, kv, vv, ix⟩ lo) from rfl]
      rw [if_pos hcase]
      have hmid_lt : lo + (hi - lo) / 2 < hi := by omega
      have hmid_ltn : lo + (hi - lo) / 2 < es.length := by omega
      have hparse := seekTo_parse es hwf kv vv ix (lo + (hi - lo) / 2) hmid_ltn
      simp only [hparse]
      rcases byteCmp_cases (es.get ⟨lo + (hi - lo) / 2, hmid_ltn⟩).1 key
        with ⟨hcmp, hrel⟩ | ⟨hcmp, hrel⟩ | ⟨hcmp, hrel⟩
      · rw [hcmp]
        exact ih (lo + (hi - lo) / 2 + 1) hi _ rfl (by omega) (by omega) hhi
          (fun j hj hjlt => by
            rcases Nat.lt_or_ge j (lo + (hi - lo) / 2) with hj2 | hj2
            · exact bLt_trans (sortedKeys_get_lt es hsort j _ hj2 hmid_ltn) hrel
            · have : j = lo + (hi - lo) / 2 := by omega
              subst this
              exact hrel)
          hhiInv
      · rw [hcmp]
        have hmid_eq : lowerBoundIdx key es = lo + (hi - lo) / 2 := by
          apply lowerBoundIdx_unique key es _ hmid_ltn
          · exact bLe_iff.mpr (Or.inl hrel.symm)
          · intro j hj hjlt
            have := sortedKeys_get_lt es hsort j _ hjlt hmid_ltn
            rw [hrel] at this
            exact this
        constructor
        · intro h
          simp only [hmid_eq]
        · intro h
          omega
      · rw [hcmp]
        exact ih lo (lo + (hi - lo) / 2) _ rfl (by omega) (by omega) (by omega) hlo
          (fun j hj hjge => by
            rcases Nat.lt_or_ge j (lo + (hi - lo) / 2) with hj2 | hj2
            · omega
            · rcases Nat.eq_or_lt_of_le hj2 with hj3 | hj3
              · have hj4 : j = lo + (hi - lo) / 2 := by omega
                subst hj4
                exact hrel
              · exact bLt_trans hrel (sortedKeys_get_lt es hsort _ j hj3 hj))
    · rw [show BlockIterator.seekToKeyAux (fuel + 1) ⟨blockOf es, kv, vv, ix⟩ lo hi key
          = (if lo < hi then
              let mid := lo + (hi - lo) / 2
              let it' := BlockIterator.seekTo ⟨blockOf es, kv, vv, ix⟩ mid
              match byteCmp it'.key key with
              | .lt => BlockIterator.seekToKeyAux fuel it' (mid + 1) hi key
              | .gt => BlockIterator.seekToKeyAux fuel it' lo mid key
              | .eq => it'
            else BlockIterator.seekTo ⟨blockOf es, kv, vv, ix⟩ lo) from rfl]
      rw [if_neg hcase]
      have hlo_eq_hi : lo = hi := by omega
      subst hlo_eq_hi
      by_cases hlt : lo < es.length
      · have hL : lowerBoundIdx key es = lo := by
          apply lowerBoundIdx_unique key es lo hlt
          · have := hhiInv lo hlt (le_refl lo)
            exact bLe_iff.mpr (Or.inr this)
          · exact fun j hj hjlt => hlo j hj hjlt
        constructor
        · intro h
          rw [seekTo_parse es hwf kv vv ix lo hlt]
          simp only [hL]
        · intro h
          omega
      · have hlo_eq : lo = es.length := by omega
        subst hlo_eq
        have hL : lowerBoundIdx key es = es.length :=
          lowerBoundIdx_eq_length key es (fun j hj => hlo j hj hj)
        constructor
        · intro h
          omega
        · intro _
          rw [seekTo_invalid es kv vv ix es.length (le_refl _)]

/-- C7: for every block with strictly ascending non-empty keys and every
search key `k`, `BlockIterator::seek_to_key(k)` leaves the cursor at the
smallest index whose key is `≥ k` — so `key()` returns that entry's key and
the iterator is valid — and invalidates the iterator (empty current key,
`is_valid()` false) when every key in the block is `< k`. -/
theorem C7_seek_to_key (es : List (Bytes × Bytes)) (key : Bytes)
    (hwf : EntriesWF es) (hsort : SortedKeys es) :
    (∀ h : lowerBoundIdx key es < es.length,
      BlockIterator.createAndSeekToKey (blockOf es) key
        = ⟨blockOf es, (es.get ⟨lowerBoundIdx key es, h⟩).1,
            (es.get ⟨lowerBoundIdx key es, h⟩).2, lowerBoundIdx key es⟩
      ∧ (BlockIterator.createAndSeekToKey (blockOf es) key).isValid = true
      ∧ bLe key (es.get ⟨lowerBoundIdx key es, h⟩).1
      ∧ (∀ j (hj : j < es.length), j < lowerBoundIdx key es →
          bLt (es.get ⟨j, hj⟩).1 key)) ∧
    (lowerBoundIdx key es = es.length →
      (BlockIterator.createAndSeekToKey (blockOf es) key).key = []
      ∧ (BlockIterator.createAndSeekToKey (blockOf es) key).isValid = false
      ∧ ∀ j (hj : j < es.length), bLt (es.get ⟨j, hj⟩).1 key) := by
  have hlen : (entryOffsets es).length = es.length := entryOffsets_length es
  have hrw : BlockIterator.createAndSeekToKey (blockOf es) key
      = BlockIterator.seekToKeyAux (es.length + 1) ⟨blockOf es, [], [], 0⟩ 0
          es.length key := by
    unfold BlockIterator.createAndSeekToKey BlockIterator.seekToKey
    dsimp only [blockOf]
    rw [hlen]
  have hspec := seekToKeyAux_spec es hwf hsort key (es.length + 1) 0 es.length
    ⟨blockOf es, [], [], 0⟩ rfl (by omega) (by omega) (le_refl _)
    (fun j hj h => absurd h (by omega))
    (fun j hj h => absurd (Nat.lt_of_lt_of_le hj h) (by omega))
  constructor
  · intro h
    have heq := hspec.1 h
    rw [hrw, heq]
    refine ⟨rfl, ?_, lowerBoundIdx_ge key es h, fun j hj hjlt => lowerBoundIdx_lt key es j hj hjlt⟩
    have hk_pos : 0 < (es.get ⟨lowerBoundIdx key es, h⟩).1.length :=
      (hwf.2.1 _ (List.get_mem es _ h)).1
    show (!(es.get ⟨lowerBoundIdx key es, h⟩).1.isEmpty) = true
    cases hval : (es.get ⟨lowerBoundIdx key es, h⟩).1 with
    | nil => rw [hval] at hk_pos; exact absurd hk_pos (by simp)
    | cons a l => rfl
  · intro h
    have heq := hspec.2 h
    rw [hrw]
    refine ⟨heq, ?_, fun j hj => lowerBoundIdx_lt key es j hj (by omega)⟩
    simp [BlockIterator.isValid, heq]

/-- Entries of the spec's S6 block: `("1","11"), ("2","22"), ("3","33")`. -/
def s6Entries : List (Bytes × Bytes) :=
  [([49], [49, 49]), ([50], [50, 50]), ([51], [51, 51])]

/-- Witness for C7 at the S6 block with search key `"2"`: the cursor lands
on index 1 holding key `"2"` and value `"22"`. -/
theorem C7_seek_to_key_witness :
    EntriesWF s6Entries ∧ SortedKeys s6Entries ∧
    BlockIterator.createAndSeekToKey (blockOf s6Entries) [50]
      = ⟨blockOf s6Entries, [50], [50, 50], 1⟩ := by
  refine ⟨by decide, by decide, ?_⟩
  have h := (C7_seek_to_key s6Entries [50] (by decide) (by decide)).1 (by decide)
  rw [h.1]
  decide

/-! ## C5: block round-trip -/

theorem get16_put16 (n : Nat) : get16 (put16 n) = n % 65536 := by
  simp only [put16, get16]
  omega

theorem flat_put16_length (os : List Nat) :
    ((os.map put16).flatten).length = 2 * os.length := by
  induction os with
  | nil => rfl
  | cons o os ih =>
    simp only [List.map_cons, List.flatten_cons, List.length_append, ih,
      put16_length, List.length_cons]
    ring

theorem chunks16_flatten (os : List Nat) :
    chunks16 ((os.map put16).flatten) = os.map (· % 65536) := by
  induction os with
  | nil => rfl
  | cons o os ih =>
    show chunks16 (o % 65536 / 256 :: o % 256 :: (os.map put16).flatten) = _
    simp only [chunks16, ih, List.map_cons]
    congr 1
    omega

theorem map_mod_eq_self (os : List Nat) (h : ∀ o ∈ os, o < 65536) :
    os.map (· % 65536) = os := by
  induction os with
  | nil => rfl
  | cons o os ih =>
    simp only [List.map_cons, List.cons.injEq]
    exact ⟨Nat.mod_eq_of_lt (h o (by simp)),
      ih (fun o' ho' => h o' (by simp [ho']))⟩

/-- `Block::decode ∘ Block::encode` is the identity on blocks whose offsets
and entry count fit in `u16` (true of every block the builder produces). -/
theorem Block.decode_encode (b : Block)
    (h1 : ∀ o ∈ b.offsets, o < 65536) (h2 : b.offsets.length < 65536) :
    Block.decode (Block.encode b) = DecodeResult.ok b := by
  obtain ⟨d, os⟩ := b
  simp only at h1 h2
  have hflat : ((os.map put16).flatten).length = 2 * os.length :=
    flat_put16_length os
  have htot : (Block.encode ⟨d, os⟩).length = d.length + 2 * os.length + 2 := by
    simp [Block.encode, List.length_append, hflat, put16_length]
    omega
  unfold Block.decode
  rw [if_neg (by omega)]
  have hdrop2 : (Block.encode ⟨d, os⟩).drop ((Block.encode ⟨d, os⟩).length - 2)
      = put16 os.length := by
    have hsplit : Block.encode ⟨d, os⟩
        = (d ++ (os.map put16).flatten) ++ put16 os.length := by
      simp [Block.encode]
    rw [hsplit]
    have hl : ((d ++ (os.map put16).flatten) ++ put16 os.length).length - 2
        = (d ++ (os.map put16).flatten).length := by
      simp [List.length_append, put16_length, hflat]
      omega
    rw [hl, List.drop_left]
  rw [hdrop2, get16_put16, Nat.mod_eq_of_lt h2]
  rw [if_neg (by omega)]
  simp only [DecodeResult.ok.injEq]
  have hdataEnd : (Block.encode ⟨d, os⟩).length - (os.length + 1) * 2 = d.length := by
    omega
  rw [hdataEnd]
  rw [Block.mk.injEq]
  constructor
  · have hsplit : Block.encode ⟨d, os⟩
        = d ++ ((os.map put16).flatten ++ put16 os.length) := by
      simp [Block.encode]
    rw [hsplit, List.take_left]
  · have hsplit : Block.encode ⟨d, os⟩
        = d ++ ((os.map put16).flatten ++ put16 os.length) := by
      simp [Block.encode]
    rw [hsplit, List.drop_left]
    have htake : ((os.map put16).flatten ++ put16 os.length).take (os.length * 2)
        = (os.map put16).flatten := by
      have : os.length * 2 = ((os.map put16).flatten).length := by omega
      rw [this, List.take_left]
    rw [htake, chunks16_flatten, map_mod_eq_self os h1]

theorem entryOffsetsFrom_all_lt (base : Nat) (es : List (Bytes × Bytes)) :
    ∀ o ∈ entryOffsetsFrom base es, o < 65536 := by
  induction es generalizing base with
  | nil => intro o ho; exact absurd ho (by simp [entryOffsetsFrom])
  | cons e es ih =>
    intro o ho
    simp only [entryOffsetsFrom, List.mem_cons] at ho
    rcases ho with ho | ho
    · subst ho
      exact Nat.mod_lt _ (by omega)
    · exact ih _ o ho

/-- Round-trip of the canonical block of a well-formed entry list. -/
theorem blockOf_decode_encode (es : List (Bytes × Bytes)) (hwf : EntriesWF es) :
    Block.decode (Block.encode (blockOf es)) = DecodeResult.ok (blockOf es) := by
  apply Block.decode_encode
  · exact entryOffsetsFrom_all_lt 0 es
  · rw [show (blockOf es).offsets.length = es.length from entryOffsets_length es]
    exact hwf.1

/-- Collect the entries a block iterator yields when advanced to exhaustion
(`while it.is_valid() { out.push((key, value)); it.next() }`). -/
def iterateAll : Nat → BlockIterator → List (Bytes × Bytes)
  | 0, _ => []
  | fuel + 1, it =>
    if it.isValid then (it.key, it.value) :: iterateAll fuel it.next else []

/-- Seek a block to its first entry and advance to exhaustion. -/
def Block.toList (b : Block) : List (Bytes × Bytes) :=
  iterateAll (b.offsets.length + 1) (BlockIterator.createAndSeekToFirst b)

theorem iterateAll_invalid (fuel : Nat) (it : BlockIterator) (h : it.key = []) :
    iterateAll fuel it = [] := by
  cases fuel with
  | zero => rfl
  | succ fuel =>
    simp [iterateAll, BlockIterator.isValid, h]

theorem iterateAll_from (es : List (Bytes × Bytes)) (hwf : EntriesWF es) :
    ∀ (fuel i : Nat) (h : i < es.length), es.length - i ≤ fuel →
    iterateAll fuel ⟨blockOf es, (es.get ⟨i, h⟩).1, (es.get ⟨i, h⟩).2, i⟩
      = es.drop i := by
  intro fuel
  induction fuel with
  | zero => intro i h hfuel; omega
  | succ fuel ih =>
    intro i h hfuel
    have hk_pos : 0 < (es.get ⟨i, h⟩).1.length :=
      (hwf.2.1 _ (List.get_mem es i h)).1
    have hvalid : (BlockIterator.mk (blockOf es) (es.get ⟨i, h⟩).1
        (es.get ⟨i, h⟩).2 i).isValid = true := by
      show (!(es.get ⟨i, h⟩).1.isEmpty) = true
      cases hval : (es.get ⟨i, h⟩).1 with
      | nil => rw [hval] at hk_pos; exact absurd hk_pos (by simp)
      | cons a l => rfl
    rw [show iterateAll (fuel + 1) ⟨blockOf es, (es.get ⟨i, h⟩).1, (es.get ⟨i, h⟩).2, i⟩
        = if (BlockIterator.mk (blockOf es) (es.get ⟨i, h⟩).1 (es.get ⟨i, h⟩).2 i).isValid
          then ((es.get ⟨i, h⟩).1, (es.get ⟨i, h⟩).2)
            :: iterateAll fuel (BlockIterator.next ⟨blockOf es, (es.get ⟨i, h⟩).1, (es.get ⟨i, h⟩).2, i⟩)
          else [] from rfl]
    rw [if_pos hvalid]
    have hdrop : es.drop i = es.get ⟨i, h⟩ :: es.drop (i + 1) := by
      rw [List.drop_eq_getElem_cons h]
      rfl
    rw [hdrop]
    have hpair : ((es.get ⟨i, h⟩).1, (es.get ⟨i, h⟩).2) = es.get ⟨i, h⟩ := rfl
    rw [hpair]
    congr 1
    show iterateAll fuel (BlockIterator.seekTo ⟨blockOf es, (es.get ⟨i, h⟩).1,
      (es.get ⟨i, h⟩).2, i⟩ (i + 1)) = es.drop (i + 1)
    by_cases hnext : i + 1 < es.length
    · rw [seekTo_parse es hwf _ _ i (i + 1) hnext]
      exact ih (i + 1) hnext (by omega)
    · have hend : i + 1 = es.length := by omega
      rw [seekTo_invalid es _ _ i (i + 1) (by omega)]
      rw [iterateAll_invalid fuel _ rfl]
      rw [hend, List.drop_length]

/-- Iterating the canonical block of a well-formed entry list from the first
entry to exhaustion reproduces the entries. -/
theorem blockOf_toList (es : List (Bytes × Bytes)) (hwf : EntriesWF es) :
    (blockOf es).toList = es := by
  unfold Block.toList BlockIterator.createAndSeekToFirst BlockIterator.seekToFirst
  have hlen : (blockOf es).offsets.length = es.length := entryOffsets_length es
  cases hcase : es with
  | nil =>
    subst hcase
    rw [seekTo_invalid [] [] [] 0 0 (by simp)]
    exact iterateAll_invalid _ _ rfl
  | cons e rest =>
    rw [← hcase]
    have h0 : 0 < es.length := by rw [hcase]; simp
    rw [seekTo_parse es hwf [] [] 0 0 h0, hlen]
    have := iterateAll_from es hwf (es.length + 1) 0 h0 (by omega)
    rw [this]
    rfl

/-- Feed a list of pairs to `BlockBuilder::add` in order; the boolean is the
conjunction of all the returned flags. -/
def addAll (b : BlockBuilder) : List (Bytes × Bytes) → BlockBuilder × Bool
  | [] => (b, true)
  | (k, v) :: rest =>
    let r := b.add k v
    let r2 := addAll r.1 rest
    (r2.1, r.2 && r2.2)

theorem mapGet_none (k : Bytes) (m : List (Bytes × Bytes))
    (h : ∀ e ∈ m, e.1 ≠ k) : mapGet k m = none := by
  induction m with
  | nil => rfl
  | cons e rest ih =>
    have hne : k ≠ e.1 := fun hc => (h e (by simp)) hc.symm
    simp only [mapGet, if_neg hne]
    exact ih (fun e' he' => h e' (by simp [he']))

theorem mapInsert_append (k v : Bytes) (m : List (Bytes × Bytes))
    (h : ∀ e ∈ m, bLt e.1 k) : mapInsert k v m = m ++ [(k, v)] := by
  induction m with
  | nil => rfl
  | cons e rest ih =>
    have hgt : byteCmp k e.1 = .gt := byteCmp_gt_iff.mpr (h e (by simp))
    simp only [mapInsert, hgt]
    rw [ih (fun e' he' => h e' (by simp [he']))]
    rfl

/-- Splitting a sorted entry list at the head. -/
theorem sortedKeys_head (k v : Bytes) (rest : List (Bytes × Bytes))
    (hsort : SortedKeys ((k, v) :: rest)) :
    (∀ p ∈ rest, bLt k p.1) ∧ SortedKeys rest := by
  have : IsTrans (Bytes × Bytes) (fun a b : Bytes × Bytes => bLt a.1 b.1) :=
    ⟨fun _ _ _ hab hbc => bLt_trans hab hbc⟩
  have hp := List.chain'_iff_pairwise.mp hsort
  rw [List.pairwise_cons] at hp
  exact ⟨hp.1, List.chain'_iff_pairwise.mpr hp.2⟩

/-- When ascending fresh keys are fed to the builder and every `add` is
accepted, the internal map is the previous map extended at the end. -/
theorem addAll_map : ∀ (ps : List (Bytes × Bytes)) (b : BlockBuilder),
    (∀ e ∈ b.map, ∀ p ∈ ps, bLt e.1 p.1) → SortedKeys ps →
    (addAll b ps).2 = true → (addAll b ps).1.map = b.map ++ ps := by
  intro ps
  induction ps with
  | nil => intro b _ _ _; simp [addAll]
  | cons p rest ih =>
    intro b hbelow hsort hacc
    obtain ⟨k, v⟩ := p
    obtain ⟨hhead, hrest⟩ := sortedKeys_head k v rest hsort
    rw [show addAll b ((k, v) :: rest)
        = ((addAll (b.add k v).1 rest).1, (b.add k v).2 && (addAll (b.add k v).1 rest).2)
        from rfl] at hacc ⊢
    simp only [Bool.and_eq_true] at hacc
    obtain ⟨hok, hacc2⟩ := hacc
    have hget : mapGet k b.map = none :=
      mapGet_none k b.map (fun e he => bLt_ne (hbelow e he (k, v) (by simp)))
    have hmapins : mapInsert k v b.map = b.map ++ [(k, v)] :=
      mapInsert_append k v b.map (fun e he => hbelow e he (k, v) (by simp))
    have hstep : (b.add k v).1.map = mapInsert k v b.map ∨ (b.add k v).2 = false := by
      unfold BlockBuilder.add
      rw [hget]
      by_cases hcond : b.cap < b.size + k.length + v.length + 2 * 3 ∧ b.map ≠ []
      · rw [if_pos hcond]
        exact Or.inr rfl
      · rw [if_neg hcond]
        exact Or.inl rfl
    rcases hstep with hm | hm
    · have hih := ih (b.add k v).1
        (by
          intro e he p hp
          rw [hm, hmapins] at he
          simp only [List.mem_append, List.mem_singleton] at he
          rcases he with he | he
          · exact hbelow e he p (by simp [hp])
          · subst he
            exact hhead p hp)
        hrest hacc2
      show (addAll (b.add k v).1 rest).1.map = b.map ++ (k, v) :: rest
      rw [hih, hm, hmapins]
      simp
    · rw [hm] at hok
      cases hok

/-- C5 (amended): for every sequence of ascending, distinct `(k,v)` pairs all
accepted by a `BlockBuilder` of capacity `S` — provided the entries are
representable in the block format (non-empty keys and key/value lengths,
entry offsets and entry count all below 2^16) — decoding the encoding of the
built block yields that block back, and its iterator, sought to first and
advanced to exhaustion, produces exactly the inserted pairs in order. -/
theorem C5_block_round_trip (S : Nat) (ps : List (Bytes × Bytes))
    (hsort : SortedKeys ps) (hacc : (addAll (BlockBuilder.new S) ps).2 = true)
    (hwf : EntriesWF ps) :
    Block.decode (Block.encode ((addAll (BlockBuilder.new S) ps).1.build))
      = DecodeResult.ok ((addAll (BlockBuilder.new S) ps).1.build)
    ∧ ((addAll (BlockBuilder.new S) ps).1.build).toList = ps := by
  have hmap : (addAll (BlockBuilder.new S) ps).1.map = ps := by
    have := addAll_map ps (BlockBuilder.new S)
      (by intro e he; exact absurd he (by simp [BlockBuilder.new])) hsort hacc
    simpa [BlockBuilder.new] using this
  have hbuild : (addAll (BlockBuilder.new S) ps).1.build = blockOf ps := by
    rw [BlockBuilder.build_eq, hmap]
    rfl
  rw [hbuild]
  exact ⟨blockOf_decode_encode ps hwf, blockOf_toList ps hwf⟩

/-- Witness for C5 at the S6 entries with a 4096-byte builder. -/
theorem C5_block_round_trip_witness :
    SortedKeys s6Entries
    ∧ (addAll (BlockBuilder.new 4096) s6Entries).2 = true
    ∧ EntriesWF s6Entries
    ∧ (Block.decode (Block.encode ((addAll (BlockBuilder.new 4096) s6Entries).1.build))
        = DecodeResult.ok ((addAll (BlockBuilder.new 4096) s6Entries).1.build)
      ∧ ((addAll (BlockBuilder.new 4096) s6Entries).1.build).toList = s6Entries) :=
  ⟨by decide, by decide, by decide,
    C5_block_round_trip 4096 s6Entries (by decide) (by decide) (by decide)⟩

/-- `BlockBuilder::add` on an empty builder always takes the accepting
branch (the guard's `!is_empty()` conjunct is false). -/
theorem BlockBuilder.add_of_map_nil (b : BlockBuilder) (h : b.map = [])
    (k v : Bytes) :
    b.add k v
      = (⟨b.cap, b.size + k.length + v.length + 2 * 3, [(k, v)]⟩, true) := by
  unfold BlockBuilder.add
  rw [h, show mapGet k [] = (none : Option Bytes) from rfl]
  show (if b.cap < b.size + k.length + v.length + 2 * 3
        ∧ ([] : List (Bytes × Bytes)) ≠ []
      then (b, false)
      else (⟨b.cap, b.size + k.length + v.length + 2 * 3, mapInsert k v []⟩, true))
    = (⟨b.cap, b.size + k.length + v.length + 2 * 3, [(k, v)]⟩, true)
  rw [if_neg (by simp)]
  rfl

/-- For any single entry accepted by a fresh builder, the builder holds
exactly that entry and `build` yields its canonical block. -/
theorem addAll_single (cap : Nat) (k v : Bytes) :
    addAll (BlockBuilder.new cap) [(k, v)]
      = (⟨(BlockBuilder.new cap).cap,
          (BlockBuilder.new cap).size + k.length + v.length + 2 * 3, [(k, v)]⟩, true) := by
  have h1 : addAll (BlockBuilder.new cap) [(k, v)]
      = ((addAll ((BlockBuilder.new cap).add k v).1 []).1,
          ((BlockBuilder.new cap).add k v).2
            && (addAll ((BlockBuilder.new cap).add k v).1 []).2)
      := rfl
  rw [h1, BlockBuilder.add_of_map_nil (BlockBuilder.new cap) rfl]
  rfl

/-- Any pair whose key length is exactly 2^16 is accepted by a fresh
builder, yet the round-tripped block iterator parses a wrapped `key_len` of
0, reads an empty key, and yields nothing. -/
theorem hugeKey_roundTrip_fails (k v : Bytes) (hk : k.length = 65536) :
    (addAll (BlockBuilder.new 16) [(k, v)]).2 = true
    ∧ ((addAll (BlockBuilder.new 16) [(k, v)]).1.build).toList = []
    ∧ ([] : List (Bytes × Bytes)) ≠ [(k, v)] := by
  refine ⟨?_, ?_, fun hne => List.noConfusion hne⟩
  · rw [addAll_single]
  · have hmap : (addAll (BlockBuilder.new 16) [(k, v)]).1.map = [(k, v)] := by
      rw [addAll_single]
    have hbuild : (addAll (BlockBuilder.new 16) [(k, v)]).1.build
        = blockOf [(k, v)] := by
      rw [BlockBuilder.build_eq, hmap]
      rfl
    rw [hbuild]
    unfold Block.toList BlockIterator.createAndSeekToFirst BlockIterator.seekToFirst
    apply iterateAll_invalid
    unfold BlockIterator.seekTo
    have hlen1 : (BlockIterator.mk (blockOf [(k, v)]) [] [] 0).block.offsets.length
        = 1 := by
      show (entryOffsets [(k, v)]).length = 1
      rw [entryOffsets_length]
      rfl
    rw [if_neg (by rw [hlen1]; omega)]
    show (((blockOf [(k, v)]).data.drop
        ((blockOf [(k, v)]).offsets.getD 0 0)).drop 2).take
      (get16 ((blockOf [(k, v)]).data.drop
        ((blockOf [(k, v)]).offsets.getD 0 0))) = []
    rw [show (blockOf [(k, v)]).offsets.getD 0 0 = 0 from rfl]
    rw [show (blockOf [(k, v)]).data = encodeEntry (k, v) ++ [] from rfl]
    rw [List.append_nil, List.drop_zero]
    rw [show encodeEntry (k, v)
        = put16 k.length ++ (k ++ (put16 v.length ++ v)) from by
      rw [show encodeEntry (k, v)
          = put16 k.length ++ k ++ put16 v.length ++ v from rfl,
        List.append_assoc, List.append_assoc]]
    rw [get16_put16_append, hk, Nat.mod_self]
    rfl

/-- A single pair whose key has length 2^16: the `u16` length field wraps to
zero. -/
def hugeKeyPairs : List (Bytes × Bytes) := [(List.replicate 65536 1, [7])]

/-- C5 (counterexample): the claim as stated quantifies over all accepted
sequences, but a single pair with a key of length 2^16 is accepted (the
first `add` always succeeds regardless of size), its `u16 key_len` field
wraps to `0`, and the round-tripped iterator parses an empty key, is
immediately invalid, and produces nothing instead of the inserted pair. -/
theorem C5_round_trip_counterexample :
    SortedKeys hugeKeyPairs
    ∧ (addAll (BlockBuilder.new 16) hugeKeyPairs).2 = true
    ∧ ((addAll (BlockBuilder.new 16) hugeKeyPairs).1.build).toList = []
    ∧ ([] : List (Bytes × Bytes)) ≠ hugeKeyPairs := by
  have h := hugeKey_roundTrip_fails (List.replicate 65536 1) [7]
    (List.length_replicate 65536 1)
  exact ⟨by rw [← sortedKeysB_iff]; rfl, h.1, h.2.1, h.2.2⟩

/-! ## C10: BlockBuilder output sorted for any insertion order -/

/-- The two possible outcomes of `BlockBuilder::add`. -/
theorem BlockBuilder.add_cases (b : BlockBuilder) (k v : Bytes) :
    b.add k v = (b, false)
    ∨ ((b.add k v).1.map = mapInsert k v b.map ∧ (b.add k v).2 = true) := by
  unfold BlockBuilder.add
  split <;> dsimp only <;> split
  · exact Or.inl rfl
  · exact Or.inr ⟨rfl, rfl⟩
  · exact Or.inl rfl
  · exact Or.inr ⟨rfl, rfl⟩

theorem mapInsert_head (k v : Bytes) (m : List (Bytes × Bytes)) :
    (mapInsert k v m).head? = some (k, v) ∨ (mapInsert k v m).head? = m.head? := by
  cases m with
  | nil => exact Or.inl rfl
  | cons e rest =>
    rcases h : byteCmp k e.1 with _ | _ | _ <;>
      simp only [mapInsert, h]
    · exact Or.inl rfl
    · exact Or.inl rfl
    · exact Or.inr rfl

/-- `BTreeMap::insert` keeps the entry list strictly sorted. -/
theorem mapInsert_sorted (k v : Bytes) (m : List (Bytes × Bytes))
    (h : SortedKeys m) : SortedKeys (mapInsert k v m) := by
  induction m with
  | nil => exact List.chain'_singleton _
  | cons e rest ih =>
    have hsplit := (List.chain'_cons'.mp h)
    rcases hc : byteCmp k e.1 with _ | _ | _
    · rw [show mapInsert k v (e :: rest) = (k, v) :: e :: rest from by
        simp only [mapInsert, hc]]
      show List.Chain' _ ((k, v) :: e :: rest)
      rw [List.chain'_cons]
      exact ⟨hc, h⟩
    · rw [show mapInsert k v (e :: rest) = (k, v) :: rest from by
        simp only [mapInsert, hc]]
      show List.Chain' _ ((k, v) :: rest)
      rw [List.chain'_cons']
      refine ⟨?_, hsplit.2⟩
      intro y hy
      have := hsplit.1 y hy
      show bLt (k, v).1 y.1
      rw [show (k, v).1 = k from rfl, byteCmp_eq_iff.mp hc]
      exact this
    · rw [show mapInsert k v (e :: rest) = e :: mapInsert k v rest from by
        simp only [mapInsert, hc]]
      show List.Chain' _ (e :: mapInsert k v rest)
      rw [List.chain'_cons']
      refine ⟨?_, ih hsplit.2⟩
      intro y hy
      rcases mapInsert_head k v rest with hh | hh
      · rw [hh] at hy
        cases hy
        exact byteCmp_gt_iff.mp hc
      · rw [hh] at hy
        exact hsplit.1 y hy

/-- The builder's map stays strictly sorted across any sequence of adds
(accepted or not). -/
theorem addAll_sorted (ps : List (Bytes × Bytes)) :
    ∀ (b : BlockBuilder), SortedKeys b.map → SortedKeys (addAll b ps).1.map := by
  induction ps with
  | nil => intro b hb; exact hb
  | cons p rest ih =>
    intro b hb
    obtain ⟨k, v⟩ := p
    show SortedKeys (addAll (b.add k v).1 rest).1.map
    rcases BlockBuilder.add_cases b k v with hc | ⟨hc, _⟩
    · rw [hc]
      exact ih b hb
    · exact ih (b.add k v).1 (by rw [hc]; exact mapInsert_sorted k v b.map hb)

/-- The value bound to `k` by the latest `(k, _)` element of the list, if
any. -/
def lastBinding (k : Bytes) : List (Bytes × Bytes) → Option Bytes
  | [] => none
  | (k', v') :: rest =>
    match lastBinding k rest with
    | some v => some v
    | none => if k = k' then some v' else none

theorem mapGet_insert_self (k v : Bytes) (m : List (Bytes × Bytes)) :
    mapGet k (mapInsert k v m) = some v := by
  induction m with
  | nil => simp [mapInsert, mapGet]
  | cons e rest ih =>
    rcases hc : byteCmp k e.1 with _ | _ | _ <;> simp only [mapInsert, hc]
    · simp [mapGet]
    · simp [mapGet]
    · have hne : k ≠ e.1 := by
        intro hk
        rw [hk, byteCmp_self] at hc
        cases hc
      simp only [mapGet, if_neg hne]
      exact ih

theorem mapGet_insert_other (k k' v : Bytes) (m : List (Bytes × Bytes))
    (h : k' ≠ k) : mapGet k' (mapInsert k v m) = mapGet k' m := by
  induction m with
  | nil => simp [mapInsert, mapGet, if_neg h]
  | cons e rest ih =>
    rcases hc : byteCmp k e.1 with _ | _ | _ <;> simp only [mapInsert, hc]
    · simp only [mapGet, if_neg h]
    · have hke : k = e.1 := byteCmp_eq_iff.mp hc
      simp only [mapGet, if_neg h]
      rw [show e = (e.1, e.2) from rfl]
      simp only [mapGet]
      rw [if_neg (by rw [← hke]; exact h)]
    · rw [show e = (e.1, e.2) from rfl]
      simp only [mapGet, ih]

/-- After a fully accepted sequence of adds, each key is bound to the value
of its most recent add. -/
theorem addAll_lastBinding (ps : List (Bytes × Bytes)) :
    ∀ (b : BlockBuilder), (addAll b ps).2 = true → ∀ k : Bytes,
    mapGet k (addAll b ps).1.map
      = match lastBinding k ps with
        | some v => some v
        | none => mapGet k b.map := by
  induction ps with
  | nil => intro b _ k; rfl
  | cons p rest ih =>
    intro b hacc k
    obtain ⟨k0, v0⟩ := p
    rw [show addAll b ((k0, v0) :: rest)
        = ((addAll (b.add k0 v0).1 rest).1,
            (b.add k0 v0).2 && (addAll (b.add k0 v0).1 rest).2) from rfl] at hacc ⊢
    simp only [Bool.and_eq_true] at hacc
    rcases BlockBuilder.add_cases b k0 v0 with hc | ⟨hc, _⟩
    · rw [hc] at hacc
      simp at hacc
    · have hrec := ih (b.add k0 v0).1 hacc.2 k
      show mapGet k (addAll (b.add k0 v0).1 rest).1.map = _
      rw [hrec, hc]
      rcases hlast : lastBinding k rest with _ | v
      · simp only [lastBinding, hlast]
        by_cases hk : k = k0
        · subst hk
          rw [if_pos rfl, mapGet_insert_self]
        · rw [if_neg hk, mapGet_insert_other k0 k v0 b.map hk]
      · simp only [lastBinding, hlast]

/-- C10: for every sequence of `BlockBuilder::add` calls that all return
true — in any key order, with possible repeated keys — the builder's map is
strictly sorted with no duplicate keys, each key is bound to the most
recently added value, and `build()` serializes exactly that sorted map, so
the block's keys are strictly ascending without the caller adding in
ascending order. -/
theorem C10_builder_sorted_any_order (S : Nat) (ps : List (Bytes × Bytes))
    (hacc : (addAll (BlockBuilder.new S) ps).2 = true) :
    SortedKeys (addAll (BlockBuilder.new S) ps).1.map
    ∧ (addAll (BlockBuilder.new S) ps).1.build
        = blockOf (addAll (BlockBuilder.new S) ps).1.map
    ∧ ∀ k : Bytes, mapGet k (addAll (BlockBuilder.new S) ps).1.map
        = lastBinding k ps := by
  refine ⟨?_, ?_, ?_⟩
  · exact addAll_sorted ps (BlockBuilder.new S) (by exact List.chain'_nil)
  · rw [BlockBuilder.build_eq]
    rfl
  · intro k
    have := addAll_lastBinding ps (BlockBuilder.new S) hacc k
    rw [this]
    rcases hlast : lastBinding k ps with _ | v
    · rfl
    · rfl

/-- Out-of-order input with a repeated key for the C10 witness:
`add("2","a"); add("1","b"); add("2","c")`. -/
def outOfOrderPairs : List (Bytes × Bytes) :=
  [([50], [97]), ([49], [98]), ([50], [99])]

/-- Witness for C10: all three adds are accepted and the final map is
sorted, binds "2" to the last value "c", and is what `build` serializes. -/
theorem C10_builder_sorted_any_order_witness :
    (addAll (BlockBuilder.new 4096) outOfOrderPairs).2 = true
    ∧ (SortedKeys (addAll (BlockBuilder.new 4096) outOfOrderPairs).1.map
      ∧ (addAll (BlockBuilder.new 4096) outOfOrderPairs).1.build
          = blockOf (addAll (BlockBuilder.new 4096) outOfOrderPairs).1.map
      ∧ ∀ k : Bytes, mapGet k (addAll (BlockBuilder.new 4096) outOfOrderPairs).1.map
          = lastBinding k outOfOrderPairs) :=
  ⟨by decide, C10_builder_sorted_any_order 4096 outOfOrderPairs (by decide)⟩

/-! ## SsTable and its builder (src/table.rs, src/table/builder.rs) -/

/-- Big-endian 4-byte encoding of `n` truncated to `u32`
(Rust `put_u32(n as u32)`). -/
def put32 (n : Nat) : Bytes :=
  [n % 4294967296 / 16777216, n % 16777216 / 65536, n % 65536 / 256, n % 256]

/-- `BlockMeta` from src/table.rs. -/
structure BlockMeta where
  offset : Nat
  first_key : Bytes
deriving DecidableEq

/-- `BlockMeta::encode_block_meta`: per-record
`u32 offset | u32 first_key_len | first_key`. -/
def encodeBlockMetas (ms : List BlockMeta) : Bytes :=
  (ms.map (fun m => put32 m.offset ++ put32 m.first_key.length ++ m.first_key)).flatten

/-- `SsTable` (the pure content: backing file bytes, parsed metas, index
offset; `id` and the block cache do not affect the modelled reads). -/
structure SsTable where
  file : Bytes
  block_metas : List BlockMeta
  block_meta_offset : Nat
deriving DecidableEq

inductive ReadError
  | outOfRange
  | panicked
deriving DecidableEq

/-- The byte range `read_block` reads: `[offset_i, offset_{i+1})`, or
`[offset_i, block_meta_offset)` for the last block. -/
def SsTable.read_block_bytes (t : SsTable) (i : Nat) : Bytes :=
  let offset := (t.block_metas.getD i ⟨0, []⟩).offset
  let len := if i + 1 < t.block_metas.length
    then (t.block_metas.getD (i + 1) ⟨0, []⟩).offset - offset
    else t.block_meta_offset - offset
  (t.file.drop offset).take len

/-- `SsTable::read_block`: out-of-range is an `anyhow` error returned to the
caller; a failing `Block::decode` inside is a panic. -/
def SsTable.read_block (t : SsTable) (i : Nat) : Except ReadError Block :=
  if i < t.block_metas.length then
    match Block.decode (t.read_block_bytes i) with
    | .ok b => .ok b
    | .panicked => .error .panicked
  else .error .outOfRange

/-- `SsTableBuilder` from src/table/builder.rs. -/
structure SsTableBuilder where
  data : List Block
  meta : List BlockMeta
  block_builder : BlockBuilder
  block_size : Nat
  first_key : Bytes

/-- `SsTableBuilder::new`. -/
def SsTableBuilder.new (block_size : Nat) : SsTableBuilder :=
  ⟨[], [], BlockBuilder.new block_size, block_size, []⟩

/-- `SsTableBuilder::estimated_size`: the summed sizes of the finalized
blocks. -/
def SsTableBuilder.estimated_size (st : SsTableBuilder) : Nat :=
  (st.data.map Block.size).sum

/-- `SsTableBuilder::add`: on overflow, finalize the current block — pushing
its meta with `offset = estimated_size()` *before* pushing the block itself
— and retry in a fresh block builder. -/
def SsTableBuilder.add (st : SsTableBuilder) (k v : Bytes) : SsTableBuilder :=
  let st := if st.first_key = [] then { st with first_key := k } else st
  let r := st.block_builder.add k v
  if r.2 then
    { st with block_builder := r.1 }
  else
    { st with
        block_builder := ((BlockBuilder.new st.block_size).add k v).1,
        meta := st.meta ++ [⟨st.estimated_size, st.first_key⟩],
        data := st.data ++ [st.block_builder.build],
        first_key := k }

/-- The final-block flush at the start of `SsTableBuilder::build`. -/
def SsTableBuilder.finalize (st : SsTableBuilder) : SsTableBuilder :=
  if st.block_builder.isEmpty then st
  else
    { st with
        block_builder := BlockBuilder.new st.block_size,
        meta := st.meta ++ [⟨st.estimated_size, st.first_key⟩],
        data := st.data ++ [st.block_builder.build] }

/-- Serialization tail of `SsTableBuilder::build` on an already finalized
builder: blocks back-to-back, the meta section, and the `u32` index offset. -/
def SsTableBuilder.buildFinalized (st : SsTableBuilder) : SsTable :=
  let data := (st.data.map Block.encode).flatten
  ⟨data ++ encodeBlockMetas st.meta ++ put32 data.length, st.meta, data.length⟩

/-- `SsTableBuilder::build` (pure content; the path and cache arguments do
not affect it). -/
def SsTableBuilder.build (st : SsTableBuilder) : SsTable :=
  st.finalize.buildFinalized

/-- Feed pairs into the table builder in order. -/
def addAllSst (st : SsTableBuilder) : List (Bytes × Bytes) → SsTableBuilder
  | [] => st
  | (k, v) :: rest => addAllSst (st.add k v) rest

/-- The offset invariant: as many metas as finalized blocks, and each
recorded offset is the cumulative encoded size of the blocks before it. -/
def OffsetInv (st : SsTableBuilder) : Prop :=
  st.meta.length = st.data.length ∧
  ∀ i, i < st.data.length →
    (st.meta.getD i ⟨0, []⟩).offset = ((st.data.take i).map Block.size).sum

theorem offsetInv_new (bs : Nat) : OffsetInv (SsTableBuilder.new bs) := by
  constructor
  · rfl
  · intro i h
    exact absurd h (by simp [SsTableBuilder.new])

/-- Appending one finalized block (meta first, computed from
`estimated_size` before the push) preserves the invariant. -/
theorem offsetInv_push (st : SsTableBuilder) (b : Block) (fk : Bytes)
    (h : OffsetInv st) :
    OffsetInv { st with
        meta := st.meta ++ [⟨st.estimated_size, fk⟩],
        data := st.data ++ [b] } := by
  obtain ⟨hlen, hoff⟩ := h
  constructor
  · simp [hlen]
  · intro i hi
    simp only [List.length_append, List.length_cons, List.length_nil] at hi
    by_cases hcase : i < st.data.length
    · rw [List.getD_append st.meta _ ⟨0, []⟩ i (by omega)]
      rw [List.take_append_of_le_length (by omega)]
      exact hoff i hcase
    · have hieq : i = st.data.length := by omega
      rw [List.getD_append_right st.meta _ ⟨0, []⟩ i (by omega)]
      rw [hieq, hlen]
      simp only [Nat.sub_self, List.getD_cons_zero]
      rw [List.take_left]
      rfl

theorem offsetInv_add (st : SsTableBuilder) (k v : Bytes) (h : OffsetInv st) :
    OffsetInv (st.add k v) := by
  unfold SsTableBuilder.add
  have h1 : OffsetInv (if st.first_key = [] then { st with first_key := k } else st) := by
    split
    · exact h
    · exact h
  set st1 := if st.first_key = [] then { st with first_key := k } else st with hst1
  dsimp only
  split
  · exact h1
  · exact offsetInv_push st1 st1.block_builder.build st1.first_key h1

theorem offsetInv_addAll (ps : List (Bytes × Bytes)) :
    ∀ (st : SsTableBuilder), OffsetInv st → OffsetInv (addAllSst st ps) := by
  induction ps with
  | nil => intro st h; exact h
  | cons p rest ih =>
    intro st h
    obtain ⟨k, v⟩ := p
    exact ih (st.add k v) (offsetInv_add st k v h)

theorem offsetInv_finalize (st : SsTableBuilder) (h : OffsetInv st) :
    OffsetInv st.finalize := by
  unfold SsTableBuilder.finalize
  split
  · exact h
  · exact offsetInv_push st st.block_builder.build st.first_key h

theorem flatLen (bs : List Block) :
    ((bs.map Block.encode).flatten).length = (bs.map Block.size).sum := by
  induction bs with
  | nil => rfl
  | cons b rest ih =>
    simp only [List.map_cons, List.flatten_cons, List.length_append, ih,
      List.sum_cons, Block.encode_length b]

theorem sum_take_le (l : List Nat) (i : Nat) : (l.take i).sum ≤ l.sum := by
  conv_rhs => rw [← List.take_append_drop i l]
  rw [List.sum_append]
  omega

theorem sum_take_succ_blocks (bs : List Block) (i : Nat) (h : i < bs.length) :
    ((bs.take (i + 1)).map Block.size).sum
      = ((bs.take i).map Block.size).sum + (bs.getD i ⟨[], []⟩).size := by
  induction bs generalizing i with
  | nil => exact absurd h (by simp)
  | cons b rest ih =>
    cases i with
    | zero => simp
    | succ i =>
      have h' : i < rest.length := by simpa using h
      simp only [List.take_succ_cons, List.map_cons, List.sum_cons, ih i h',
        List.getD_cons_succ]
      omega

theorem flat_drop_blocks (bs : List Block) (i : Nat) (h : i ≤ bs.length) :
    ((bs.map Block.encode).flatten).drop (((bs.take i).map Block.size).sum)
      = ((bs.drop i).map Block.encode).flatten := by
  induction i generalizing bs with
  | zero => simp
  | succ i ih =>
    cases bs with
    | nil => exact absurd h (by simp)
    | cons b rest =>
      have h' : i ≤ rest.length := by simpa using h
      simp only [List.take_succ_cons, List.map_cons, List.sum_cons,
        List.flatten_cons, List.drop_succ_cons]
      rw [show b.size + ((rest.take i).map Block.size).sum
          = b.encode.length + ((rest.take i).map Block.size).sum from by
        rw [Block.encode_length]]
      rw [List.drop_append (((rest.take i).map Block.size).sum)]
      exact ih rest h'

/-- The bytes `read_block(i)` reads from a built table are exactly the
encoding of block `i`. -/
theorem read_block_bytes_eq (stf : SsTableBuilder) (hinv : OffsetInv stf)
    (i : Nat) (h : i < stf.data.length) :
    stf.buildFinalized.read_block_bytes i = (stf.data.getD i ⟨[], []⟩).encode := by
  obtain ⟨hlen, hoff⟩ := hinv
  unfold SsTableBuilder.buildFinalized SsTable.read_block_bytes
  dsimp only
  rw [hoff i h]
  have hSle : ((stf.data.take i).map Block.size).sum
      ≤ ((stf.data.map Block.encode).flatten).length := by
    rw [flatLen]
    have := sum_take_le (stf.data.map Block.size) i
    rwa [← List.map_take] at this
  have hdropfile : (((stf.data.map Block.encode).flatten ++ encodeBlockMetas stf.meta
        ++ put32 ((stf.data.map Block.encode).flatten).length).drop
          (((stf.data.take i).map Block.size).sum))
      = (stf.data.getD i ⟨[], []⟩).encode
        ++ (((stf.data.drop (i + 1)).map Block.encode).flatten
          ++ (encodeBlockMetas stf.meta
            ++ put32 ((stf.data.map Block.encode).flatten).length)) := by
    rw [List.append_assoc, List.drop_append_eq_append_drop]
    rw [flat_drop_blocks stf.data i (Nat.le_of_lt h)]
    rw [Nat.sub_eq_zero_of_le hSle, List.drop_zero]
    have hsplit : stf.data.drop i
        = stf.data.getD i ⟨[], []⟩ :: stf.data.drop (i + 1) := by
      rw [List.getD_eq_getElem stf.data _ h, List.drop_eq_getElem_cons h]
    rw [hsplit]
    simp only [List.map_cons, List.flatten_cons, List.append_assoc]
  have hsum_succ := sum_take_succ_blocks stf.data i h
  by_cases hcase : i + 1 < stf.meta.length
  · rw [if_pos hcase]
    rw [hoff (i + 1) (by omega)]
    rw [hsum_succ]
    rw [Nat.add_sub_cancel_left, hdropfile]
    rw [show (stf.data.getD i ⟨[], []⟩).size
        = (stf.data.getD i ⟨[], []⟩).encode.length from (Block.encode_length _).symm]
    rw [List.take_left]
  · rw [if_neg hcase]
    have hilast : i + 1 = stf.data.length := by omega
    have htot : ((stf.data.map Block.encode).flatten).length
        = ((stf.data.take i).map Block.size).sum + (stf.data.getD i ⟨[], []⟩).size := by
      rw [flatLen, ← hsum_succ, hilast, List.take_length]
    rw [hdropfile, htot, Nat.add_sub_cancel_left]
    rw [show (stf.data.getD i ⟨[], []⟩).size
        = (stf.data.getD i ⟨[], []⟩).encode.length from (Block.encode_length _).symm]
    rw [List.take_left]

/-- C2: for every sequence of ascending pairs fed to `SsTableBuilder::add`
and then `build`, each `meta[i].offset` equals the byte offset where encoded
block `i` begins in the serialized file — the sum of the encoded sizes of
blocks `0..i` — and consequently `read_block(i)` reads back exactly the
bytes of block `i`.  (The source computes the offset from `estimated_size()`
*before* pushing the finalized block, which is the correct variant.) -/
theorem C2_sst_offsets (bs : Nat) (ps : List (Bytes × Bytes))
    (_hsort : SortedKeys ps) :
    ∀ i, i < (addAllSst (SsTableBuilder.new bs) ps).finalize.data.length →
    (((addAllSst (SsTableBuilder.new bs) ps).build).block_metas.getD i ⟨0, []⟩).offset
      = ((((addAllSst (SsTableBuilder.new bs) ps).finalize.data.take i).map
          (fun b => b.encode.length)).sum)
    ∧ ((addAllSst (SsTableBuilder.new bs) ps).build).read_block_bytes i
      = ((addAllSst (SsTableBuilder.new bs) ps).finalize.data.getD i ⟨[], []⟩).encode := by
  intro i h
  have hinv : OffsetInv (addAllSst (SsTableBuilder.new bs) ps).finalize :=
    offsetInv_finalize _ (offsetInv_addAll ps _ (offsetInv_new bs))
  constructor
  · rw [show ((addAllSst (SsTableBuilder.new bs) ps).build).block_metas
        = (addAllSst (SsTableBuilder.new bs) ps).finalize.meta from rfl]
    rw [hinv.2 i h]
    congr 1
    apply List.map_congr_left
    intro b _
    exact (Block.encode_length b).symm
  · exact read_block_bytes_eq _ hinv i h

/-- Entries sized to force multiple blocks at `block_size = 16` for the C2
witness. -/
def multiBlockPairs : List (Bytes × Bytes) :=
  [([49, 49], [49, 49]), ([50, 50], [50, 50]), ([51, 51], [51, 51])]

/-- Witness for C2: three two-byte-key entries against a 16-byte block size
split into blocks whose offsets and read-back bytes the theorem fixes; the
instantiation below checks them at block index 1. -/
theorem C2_sst_offsets_witness :
    SortedKeys multiBlockPairs
    ∧ 1 < (addAllSst (SsTableBuilder.new 16) multiBlockPairs).finalize.data.length
    ∧ ((((addAllSst (SsTableBuilder.new 16) multiBlockPairs).build).block_metas.getD 1
        ⟨0, []⟩).offset
      = ((((addAllSst (SsTableBuilder.new 16) multiBlockPairs).finalize.data.take 1).map
          (fun b => b.encode.length)).sum)
      ∧ ((addAllSst (SsTableBuilder.new 16) multiBlockPairs).build).read_block_bytes 1
        = ((addAllSst (SsTableBuilder.new 16) multiBlockPairs).finalize.data.getD 1
            ⟨[], []⟩).encode) :=
  ⟨by decide, by decide,
    C2_sst_offsets 16 multiBlockPairs (by decide) 1 (by decide)⟩

/-! ## C6: SsTable::find_block_idx -/

/-- The binary-search loop of `find_block_idx`, fuel-indexed; the fuel is
always chosen larger than `hi - lo`. -/
def SsTable.findBlockIdxAux (t : SsTable) (key : Bytes) : Nat → Nat → Nat → Nat
  | 0, _, hi => if 0 < hi then hi - 1 else 0
  | fuel + 1, lo, hi =>
    if lo < hi then
      let mid := lo + (hi - lo) / 2
      match byteCmp (t.block_metas.getD mid ⟨0, []⟩).first_key key with
      | .lt => t.findBlockIdxAux key fuel (mid + 1) hi
      | .gt => t.findBlockIdxAux key fuel lo mid
      | .eq => mid
    else if 0 < hi then hi - 1 else 0

/-- `SsTable::find_block_idx`: binary search for the block that may contain
`key`. -/
def SsTable.find_block_idx (t : SsTable) (key : Bytes) : Nat :=
  t.findBlockIdxAux key (t.block_metas.length + 1) 0 t.block_metas.length

/-- The specification's target: the largest index whose `first_key ≤ key`,
if one exists (meaningful on a sorted index). -/
def largestLEIdx (key : Bytes) : List BlockMeta → Option Nat
  | [] => none
  | m :: rest =>
    if bLe m.first_key key then
      match largestLEIdx key rest with
      | some j => some (j + 1)
      | none => some 0
    else none

/-- Metas strictly sorted by first key. -/
def SortedMetas (ms : List BlockMeta) : Prop :=
  List.Chain' (fun a b : BlockMeta => bLt a.first_key b.first_key) ms

/-- Executable check for `SortedMetas`. -/
def sortedMetasB : List BlockMeta → Bool
  | [] => true
  | [_] => true
  | a :: b :: rest => decide (bLt a.first_key b.first_key) && sortedMetasB (b :: rest)

theorem sortedMetasB_iff : ∀ (ms : List BlockMeta),
    sortedMetasB ms = true ↔ SortedMetas ms
  | [] => by simp [sortedMetasB, SortedMetas]
  | [m] => by simp [sortedMetasB, SortedMetas]
  | a :: b :: rest => by
    rw [show sortedMetasB (a :: b :: rest)
        = (decide (bLt a.first_key b.first_key) && sortedMetasB (b :: rest)) from rfl]
    rw [Bool.and_eq_true, decide_eq_true_eq, sortedMetasB_iff (b :: rest)]
    show _ ↔ List.Chain' _ (a :: b :: rest)
    rw [List.chain'_cons]
    exact Iff.rfl

instance (ms : List BlockMeta) : Decidable (SortedMetas ms) :=
  decidable_of_iff _ (sortedMetasB_iff ms)

theorem sortedMetas_getD_lt (ms : List BlockMeta) (hsort : SortedMetas ms)
    (i j : Nat) (hij : i < j) (hj : j < ms.length) :
    bLt (ms.getD i ⟨0, []⟩).first_key (ms.getD j ⟨0, []⟩).first_key := by
  have hp : List.Pairwise (fun a b : BlockMeta => bLt a.first_key b.first_key) ms := by
    have : IsTrans BlockMeta (fun a b : BlockMeta => bLt a.first_key b.first_key) :=
      ⟨fun _ _ _ hab hbc => bLt_trans hab hbc⟩
    exact List.chain'_iff_pairwise.mp hsort
  have hi : i < ms.length := Nat.lt_trans hij hj
  rw [List.getD_eq_getElem ms _ hi, List.getD_eq_getElem ms _ hj]
  exact List.pairwise_iff_get.mp hp ⟨i, hi⟩ ⟨j, hj⟩ hij

theorem not_bLe_of_bLt {a b : Bytes} (h : bLt a b) : ¬ bLe b a := by
  intro hle
  rcases bLe_iff.mp hle with he | hl
  · rw [he] at h
    exact bLt_irrefl a h
  · exact bLt_irrefl a (bLt_trans h hl)

theorem largestLEIdx_none (key : Bytes) (ms : List BlockMeta)
    (h : ∀ j, j < ms.length → bLt key (ms.getD j ⟨0, []⟩).first_key) :
    largestLEIdx key ms = none := by
  cases ms with
  | nil => rfl
  | cons m rest =>
    have h0 := h 0 (by simp)
    simp only [List.getD_cons_zero] at h0
    simp only [largestLEIdx, if_neg (not_bLe_of_bLt h0)]

theorem largestLEIdx_unique (key : Bytes) (ms : List BlockMeta)
    (hsort : SortedMetas ms) (i : Nat) (hi : i < ms.length)
    (hle : bLe (ms.getD i ⟨0, []⟩).first_key key)
    (hgt : ∀ j, i < j → j < ms.length → bLt key (ms.getD j ⟨0, []⟩).first_key) :
    largestLEIdx key ms = some i := by
  induction ms generalizing i with
  | nil => exact absurd hi (by simp)
  | cons m rest ih =>
    have hrest : SortedMetas rest := (List.chain'_cons'.mp hsort).2
    cases i with
    | zero =>
      simp only [List.getD_cons_zero] at hle
      simp only [largestLEIdx, if_pos hle]
      rw [largestLEIdx_none key rest (fun j hj => by
        have := hgt (j + 1) (by omega) (by simpa using hj)
        simpa using this)]
    | succ i =>
      have hi' : i < rest.length := by simpa using hi
      have hle' : bLe (rest.getD i ⟨0, []⟩).first_key key := by
        simpa using hle
      have hgt' : ∀ j, i < j → j < rest.length → bLt key (rest.getD j ⟨0, []⟩).first_key := by
        intro j hij hj
        have := hgt (j + 1) (by omega) (by simpa using hj)
        simpa using this
      have hhead : bLe m.first_key key := by
        have hlt : bLt m.first_key (rest.getD i ⟨0, []⟩).first_key := by
          have := sortedMetas_getD_lt (m :: rest) hsort 0 (i + 1) (by omega) (by simpa using hi)
          simpa using this
        rcases bLe_iff.mp hle' with he | hl
        · rw [he] at hlt
          exact bLe_iff.mpr (Or.inr hlt)
        · exact bLe_iff.mpr (Or.inr (bLt_trans hlt hl))
      simp only [largestLEIdx, if_pos hhead, ih hrest i hi' hle' hgt']

/-- Behaviour of the `find_block_idx` binary-search loop under the standard
invariants. -/
theorem findBlockIdxAux_spec (file : Bytes) (ms : List BlockMeta) (off : Nat)
    (hsort : SortedMetas ms) (key : Bytes) :
    ∀ (fuel lo hi : Nat), hi - lo < fuel → lo ≤ hi → hi ≤ ms.length →
    (∀ j, j < lo → bLe (ms.getD j ⟨0, []⟩).first_key key) →
    (∀ j, hi ≤ j → j < ms.length → bLt key (ms.getD j ⟨0, []⟩).first_key) →
    SsTable.findBlockIdxAux ⟨file, ms, off⟩ key fuel lo hi
      = match largestLEIdx key ms with
        | some i => i
        | none => 0 := by
  intro fuel
  induction fuel with
  | zero => intro lo hi hfuel _ _ _ _; omega
  | succ fuel ih =>
    intro lo hi hfuel hlohi hhi hlo hhiInv
    rw [show SsTable.findBlockIdxAux ⟨file, ms, off⟩ key (fuel + 1) lo hi
        = (if lo < hi then
            let mid := lo + (hi - lo) / 2
            match byteCmp ((⟨file, ms, off⟩ : SsTable).block_metas.getD mid
                ⟨0, []⟩).first_key key with
            | .lt => SsTable.findBlockIdxAux ⟨file, ms, off⟩ key fuel (mid + 1) hi
            | .gt => SsTable.findBlockIdxAux ⟨file, ms, off⟩ key fuel lo mid
            | .eq => mid
          else if 0 < hi then hi - 1 else 0) from rfl]
    by_cases hcase : lo < hi
    · rw [if_pos hcase]
      dsimp only
      have hmid_lt : lo + (hi - lo) / 2 < hi := by omega
      have hmid_ltn : lo + (hi - lo) / 2 < ms.length := by omega
      rcases byteCmp_cases ((⟨file, ms, off⟩ : SsTable).block_metas.getD
          (lo + (hi - lo) / 2) ⟨0, []⟩).first_key key
        with ⟨hcmp, hrel⟩ | ⟨hcmp, hrel⟩ | ⟨hcmp, hrel⟩
      · rw [hcmp]
        exact ih (lo + (hi - lo) / 2 + 1) hi (by omega) (by omega) hhi
          (fun j hjlt => by
            rcases Nat.lt_or_ge j (lo + (hi - lo) / 2) with hj2 | hj2
            · exact bLe_iff.mpr (Or.inr (bLt_trans
                (sortedMetas_getD_lt ms hsort j _ hj2 hmid_ltn) hrel))
            · have : j = lo + (hi - lo) / 2 := by omega
              subst this
              exact bLe_iff.mpr (Or.inr hrel))
          hhiInv
      · rw [hcmp]
        have := largestLEIdx_unique key ms hsort (lo + (hi - lo) / 2) hmid_ltn
          (bLe_iff.mpr (Or.inl hrel))
          (fun j hij hj => by
            have hlt := sortedMetas_getD_lt ms hsort (lo + (hi - lo) / 2) j hij hj
            rw [hrel] at hlt
            exact hlt)
        rw [this]
      · rw [hcmp]
        exact ih lo (lo + (hi - lo) / 2) (by omega) (by omega) (by omega) hlo
          (fun j hjge hj => by
            rcases Nat.eq_or_lt_of_le hjge with hj3 | hj3
            · have hj4 : j = lo + (hi - lo) / 2 := by omega
              subst hj4
              exact hrel
            · exact bLt_trans hrel (sortedMetas_getD_lt ms hsort _ j hj3 hj))
    · rw [if_neg hcase]
      have hlo_eq : lo = hi := by omega
      subst hlo_eq
      by_cases hpos : 0 < lo
      · rw [if_pos hpos]
        have hlt : lo - 1 < ms.length := by omega
        have := largestLEIdx_unique key ms hsort (lo - 1) hlt
          (hlo (lo - 1) (by omega))
          (fun j hij hj => hhiInv j (by omega) hj)
        rw [this]
      · rw [if_neg hpos]
        have hz : lo = 0 := by omega
        subst hz
        rw [largestLEIdx_none key ms (fun j hj => hhiInv j (by omega) hj)]

theorem bLt_of_largestLEIdx_none (key : Bytes) (ms : List BlockMeta)
    (hsort : SortedMetas ms) (hnone : largestLEIdx key ms = none) :
    ∀ j, j < ms.length → bLt key (ms.getD j ⟨0, []⟩).first_key := by
  cases ms with
  | nil => intro j hj; simp at hj
  | cons m rest =>
    have hnle : ¬ bLe m.first_key key := by
      intro hle
      simp only [largestLEIdx, if_pos hle] at hnone
      rcases h2 : largestLEIdx key rest with _ | j <;> rw [h2] at hnone <;> cases hnone
    intro j hj
    have h0 : bLt key m.first_key := by
      rcases byteCmp_cases key m.first_key with ⟨_, hl⟩ | ⟨_, he⟩ | ⟨_, hg⟩
      · exact hl
      · exact absurd (bLe_iff.mpr (Or.inl he.symm)) hnle
      · exact absurd (bLe_iff.mpr (Or.inr hg)) hnle
    cases j with
    | zero => simpa using h0
    | succ j =>
      have hlt := sortedMetas_getD_lt (m :: rest) hsort 0 (j + 1) (by omega) hj
      simp only [List.getD_cons_zero] at hlt
      simp only [List.getD_cons_succ] at hlt ⊢
      exact bLt_trans h0 hlt

theorem largestLEIdx_spec (key : Bytes) (ms : List BlockMeta)
    (hsort : SortedMetas ms) (i : Nat) (hsome : largestLEIdx key ms = some i) :
    i < ms.length ∧ bLe (ms.getD i ⟨0, []⟩).first_key key
    ∧ ∀ j, j < ms.length → bLe (ms.getD j ⟨0, []⟩).first_key key → j ≤ i := by
  induction ms generalizing i with
  | nil => cases hsome
  | cons m rest ih =>
    have hrest : SortedMetas rest := (List.chain'_cons'.mp hsort).2
    by_cases hhead : bLe m.first_key key
    · simp only [largestLEIdx, if_pos hhead] at hsome
      rcases hrec : largestLEIdx key rest with _ | j <;> rw [hrec] at hsome
      · injection hsome with hi0
        subst hi0
        refine ⟨by simp, by simpa using hhead, ?_⟩
        intro j hj hjle
        cases j with
        | zero => omega
        | succ j =>
          exfalso
          have hj2 : j < rest.length := by simpa using hj
          have := bLt_of_largestLEIdx_none key rest hrest hrec j hj2
          simp only [List.getD_cons_succ] at hjle
          exact not_bLe_of_bLt this hjle
      · injection hsome with hij
        subst hij
        obtain ⟨h1, h2, h3⟩ := ih hrest j hrec
        refine ⟨by simpa using h1, by simpa using h2, ?_⟩
        intro jj hjj hjjle
        cases jj with
        | zero => omega
        | succ jj =>
          simp only [List.getD_cons_succ] at hjjle
          have := h3 jj (by simpa using hjj) hjjle
          omega
    · simp only [largestLEIdx, if_neg hhead] at hsome
      cases hsome

/-- C6: for every `SortedTable` with a non-empty block index strictly sorted
by first key, `find_block_idx(k)` returns the largest index `i` with
`first_key[i] ≤ k`, and `0` when `k` is smaller than every first key — so
`first_key[i] ≤ k < first_key[i+1]` with sentinels at the ends. -/
theorem C6_find_block_idx (file : Bytes) (ms : List BlockMeta) (off : Nat)
    (key : Bytes) (_hne : ms ≠ []) (hsort : SortedMetas ms) :
    (∀ i, largestLEIdx key ms = some i →
      SsTable.find_block_idx ⟨file, ms, off⟩ key = i
      ∧ i < ms.length
      ∧ bLe (ms.getD i ⟨0, []⟩).first_key key
      ∧ (∀ j, j < ms.length → bLe (ms.getD j ⟨0, []⟩).first_key key → j ≤ i))
    ∧ (largestLEIdx key ms = none →
      SsTable.find_block_idx ⟨file, ms, off⟩ key = 0
      ∧ ∀ j, j < ms.length → bLt key (ms.getD j ⟨0, []⟩).first_key) := by
  have hspec := findBlockIdxAux_spec file ms off hsort key (ms.length + 1) 0 ms.length
    (by omega) (by omega) (le_refl _)
    (fun j hj => absurd hj (by omega))
    (fun j hge hj => absurd (Nat.lt_of_lt_of_le hj hge) (by omega))
  constructor
  · intro i hsome
    have hval : SsTable.find_block_idx ⟨file, ms, off⟩ key = i := by
      show SsTable.findBlockIdxAux ⟨file, ms, off⟩ key (ms.length + 1) 0 ms.length = i
      rw [hspec, hsome]
    obtain ⟨h1, h2, h3⟩ := largestLEIdx_spec key ms hsort i hsome
    exact ⟨hval, h1, h2, h3⟩
  · intro hnone
    have hval : SsTable.find_block_idx ⟨file, ms, off⟩ key = 0 := by
      show SsTable.findBlockIdxAux ⟨file, ms, off⟩ key (ms.length + 1) 0 ms.length = 0
      rw [hspec, hnone]
    exact ⟨hval, bLt_of_largestLEIdx_none key ms hsort hnone⟩

/-- Metas of a three-block index with first keys "1", "2", "3" for the C6
witness. -/
def exMetas : List BlockMeta := [⟨0, [49]⟩, ⟨12, [50]⟩, ⟨24, [51]⟩]

/-- Witness for C6: searching "2" in the three-block index lands on block 1
(the largest index whose first key is ≤ "2"). -/
theorem C6_find_block_idx_witness :
    exMetas ≠ [] ∧ SortedMetas exMetas ∧ largestLEIdx [50] exMetas = some 1
    ∧ SsTable.find_block_idx ⟨[], exMetas, 36⟩ [50] = 1 :=
  ⟨by decide, by decide, by decide,
    ((C6_find_block_idx [] exMetas 36 [50] (by decide) (by decide)).1 1 (by decide)).1⟩

/-! ## Engine (src/lsm_storage.rs), with the memtable and the k-way merge
iterator modelled from the spec (their sources are not part of src/). -/

/-- Modelled from the spec: `MemTable` (absent from src/) is "a mutable
ordered map from Key to Value"; `put` replaces any prior binding, iteration
order is ascending key. -/
structure MemTable where
  entries : List (Bytes × Bytes)
deriving DecidableEq

/-- Modelled from the spec: `MemTable::create` is an empty map. -/
def MemTable.create : MemTable := ⟨[]⟩

/-- Modelled from the spec: `MemTable::get`, a point lookup. -/
def MemTable.get (mt : MemTable) (k : Bytes) : Option Bytes :=
  mapGet k mt.entries

/-- Modelled from the spec: `MemTable::put` replaces any prior binding. -/
def MemTable.put (mt : MemTable) (k v : Bytes) : MemTable :=
  ⟨mapInsert k v mt.entries⟩

/-- Modelled from the spec: `MemTable::flush` feeds the entries in key order
into the table builder. -/
def MemTable.flush (mt : MemTable) (b : SsTableBuilder) : SsTableBuilder :=
  addAllSst b mt.entries

/-- `SsTableIterator` from src/table/iterator.rs. -/
structure SsTableIterator where
  table : SsTable
  block_idx : Nat
  block_iterator : BlockIterator
deriving DecidableEq

/-- `SsTableIterator::create_and_seek_to_key`: find the candidate block,
seek inside it, and on an immediately invalid in-block seek advance to the
next block (if any) and seek there. -/
def SsTableIterator.create_and_seek_to_key (t : SsTable) (key : Bytes) :
    Except ReadError SsTableIterator := do
  let block_idx := t.find_block_idx key
  let block ← t.read_block block_idx
  let block_iterator := BlockIterator.createAndSeekToKey block key
  if block_iterator.isValid = false ∧ block_idx + 1 < t.block_metas.length then
    let block2 ← t.read_block (block_idx + 1)
    pure ⟨t, block_idx + 1, BlockIterator.createAndSeekToKey block2 key⟩
  else
    pure ⟨t, block_idx, block_iterator⟩

/-- Modelled from the spec: `MergeIterator` (absent from src/) exposes,
among the valid iterators, the one with the smallest key, ties broken by
the lowest (newest) source index; list order is source order. -/
def pickMin : List SsTableIterator → Option SsTableIterator
  | [] => none
  | it :: rest =>
    let r := pickMin rest
    if it.block_iterator.isValid then
      match r with
      | some b =>
        if bLt b.block_iterator.key it.block_iterator.key then some b else some it
      | none => some it
    else r

/-- Seek every L0 table (already listed newest first) to `key`, propagating
read errors like the `?` in the source. -/
def seekAll (key : Bytes) : List SsTable → Except ReadError (List SsTableIterator)
  | [] => .ok []
  | t :: rest => do
    let it ← SsTableIterator.create_and_seek_to_key t key
    let its ← seekAll key rest
    pure (it :: its)

/-- `LsmStorageInner` from src/lsm_storage.rs (the dead `levels` field
dropped). `imm_memtables` and `l0_sstables` are ordered earliest to
latest. -/
structure LsmStorageInner where
  memtable : MemTable
  imm_memtables : List MemTable
  l0_sstables : List SsTable
  next_sst_id : Nat
deriving DecidableEq

/-- `LsmStorageInner::create`. -/
def LsmStorageInner.create : LsmStorageInner :=
  ⟨MemTable.create, [], [], 1⟩

/-- The frozen-memtable lookup loop of `get`: first hit wins, in the given
(latest-first) order. -/
def immLookup (key : Bytes) : List MemTable → Option Bytes
  | [] => none
  | t :: rest =>
    match t.get key with
    | some v => some v
    | none => immLookup key rest

/-- `LsmStorage::get` exactly as written in the source: memtable, then
frozen memtables latest-first, then a merge iterator over the L0 tables
newest-first, seeked to `key` — and then `Ok(Some(value))` whenever the
merged iterator is merely valid, without comparing its key to `key` and
without the empty-value (tombstone) check. -/
def LsmStorage.get (s : LsmStorageInner) (key : Bytes) :
    Except ReadError (Option Bytes) := do
  match s.memtable.get key with
  | some v => if v = [] then pure none else pure (some v)
  | none =>
    match immLookup key s.imm_memtables.reverse with
    | some v => if v = [] then pure none else pure (some v)
    | none => do
      let iters ← seekAll key s.l0_sstables.reverse
      match pickMin iters with
      | some it => pure (some it.block_iterator.value)
      | none => pure none

/-- Outcome of an operation that can abort by a failed `assert!`. -/
inductive POut
  | ok (s : LsmStorageInner)
  | panicked
deriving DecidableEq

/-- `LsmStorage::put`: asserts value then key non-empty, then inserts. -/
def LsmStorage.put (s : LsmStorageInner) (key value : Bytes) : POut :=
  if value = [] then .panicked
  else if key = [] then .panicked
  else .ok { s with memtable := s.memtable.put key value }

/-- `LsmStorage::delete`: asserts key non-empty, then writes the empty
value. -/
def LsmStorage.delete (s : LsmStorageInner) (key : Bytes) : POut :=
  if key = [] then .panicked
  else .ok { s with memtable := s.memtable.put key [] }

/-- The second critical section of `sync`: `imm_memtables.pop()` (which
removes the **last**, i.e. most recently frozen, memtable), push the new
table at the end of `l0_sstables`, increment `next_sst_id`. -/
def syncInstall (s : LsmStorageInner) (sst : SsTable) : LsmStorageInner :=
  { s with
      imm_memtables := s.imm_memtables.dropLast,
      l0_sstables := s.l0_sstables ++ [sst],
      next_sst_id := s.next_sst_id + 1 }

/-- `LsmStorage::sync` (single-threaded composition): freeze the current
memtable onto the end of `imm_memtables`, build an SsTable from it with
block size 4096, then install. File I/O errors are outside the model. -/
def LsmStorage.sync (s : LsmStorageInner) : LsmStorageInner :=
  let flush_memtable := s.memtable
  let s1 : LsmStorageInner :=
    { s with
        memtable := MemTable.create,
        imm_memtables := s.imm_memtables ++ [flush_memtable] }
  let sst := (flush_memtable.flush (SsTableBuilder.new 4096)).build
  syncInstall s1 sst

/-! ## C1, C3, C9: engine-level claims -/

instance {ε α : Type} [DecidableEq ε] [DecidableEq α] : DecidableEq (Except ε α)
  | .error e1, .error e2 =>
    if h : e1 = e2 then isTrue (by rw [h])
    else isFalse (by intro hc; injection hc; contradiction)
  | .error _, .ok _ => isFalse (by intro hc; cases hc)
  | .ok _, .error _ => isFalse (by intro hc; cases hc)
  | .ok a1, .ok a2 =>
    if h : a1 = a2 then isTrue (by rw [h])
    else isFalse (by intro hc; injection hc; contradiction)

/-- An engine state with empty memtables and a single L0 table holding only
the pair `("2", "2")` (bytes `[50]`), as produced by the table builder. -/
def singletonL0State : LsmStorageInner :=
  ⟨MemTable.create, [], [(addAllSst (SsTableBuilder.new 4096) [([50], [50])]).build], 2⟩

/-- C1 (failing input): the memtables are empty and no source contains the
key `"1"` (`[49]`), which is smaller than the stored key `"2"`; the claim
(and the spec's `get`) requires `None`, but the source omits the
`iter.key() == key` comparison after seeking the merge iterator, so `get`
returns the successor's value `Some("2")`. -/
theorem C1_get_missing_key_check :
    MemTable.get singletonL0State.memtable [49] = none
    ∧ immLookup [49] singletonL0State.imm_memtables.reverse = none
    ∧ LsmStorage.get singletonL0State [49] = Except.ok (some [50]) := by
  decide

/-- C3 (counterexample): a state that already holds one frozen memtable
`m0 = {("1","1")}` while the current memtable is `m1 = {("2","2")}`.  After
`sync`, the code's `imm_memtables.pop()` removes the most recently frozen
memtable (`m1`, the one just flushed), leaving `[m0]` — the claim's "the
frozen memtable removed is the oldest one" would instead leave `[m1]`. -/
theorem C3_sync_pop_counterexample :
    (LsmStorage.sync ⟨⟨[([50], [50])]⟩, [⟨[([49], [49])]⟩], [], 1⟩).imm_memtables
      = [⟨[([49], [49])]⟩]
    ∧ ([(⟨[([49], [49])]⟩ : MemTable)] : List MemTable) ≠ [⟨[([50], [50])]⟩] := by
  constructor
  · decide
  · decide

/-- C3 (amended): in the final step of sync, the frozen memtable removed by
`imm_memtables.pop()` is the most recently frozen one — which, in a
single-threaded run, is exactly the memtable this `sync` call just froze and
flushed, so the frozen list returns to its pre-sync contents — while the new
SortedTable is appended at the end of `l0_sstables` and `next_sst_id` is
incremented. -/
theorem C3_sync_installs_flushed (s : LsmStorageInner) :
    LsmStorage.sync s
      = { memtable := MemTable.create,
          imm_memtables := s.imm_memtables,
          l0_sstables := s.l0_sstables
            ++ [(s.memtable.flush (SsTableBuilder.new 4096)).build],
          next_sst_id := s.next_sst_id + 1 } := by
  unfold LsmStorage.sync syncInstall
  dsimp only
  rw [show (s.imm_memtables ++ [s.memtable]).dropLast = s.imm_memtables from by
    rw [List.dropLast_concat]]

/-- C9 (counterexample): `get` has no empty-key assertion; on the singleton
state, `get("")` proceeds, seeks the L0 merge iterator to the empty key,
lands on the smallest entry and — because of the missing key-equality
check — returns the stored value `"2"` rather than rejecting the call. -/
theorem C9_get_empty_key_counterexample :
    MemTable.get singletonL0State.memtable [] = none
    ∧ LsmStorage.get singletonL0State [] = Except.ok (some [50]) := by
  decide

/-- C9 (amended): `put` asserts its value and key non-empty and `delete`
asserts its key non-empty, aborting the operation by panic; `get` performs
no such validation (see the counterexample for what it does instead). -/
theorem C9_put_delete_assert_nonempty :
    (∀ (s : LsmStorageInner) (v : Bytes), LsmStorage.put s [] v = POut.panicked)
    ∧ (∀ (s : LsmStorageInner) (k : Bytes), LsmStorage.put s k [] = POut.panicked)
    ∧ (∀ (s : LsmStorageInner), LsmStorage.delete s [] = POut.panicked) := by
  refine ⟨?_, ?_, ?_⟩
  · intro s v
    unfold LsmStorage.put
    by_cases hv : v = []
    · rw [if_pos hv]
    · rw [if_neg hv, if_pos rfl]
  · intro s k
    unfold LsmStorage.put
    rw [if_pos rfl]
  · intro s
    unfold LsmStorage.delete
    rw [if_pos rfl]

/-! ## C8: TwoMergeIterator (src/iterators/two_merge_iterator.rs)

The iterator is generic over the `StorageIterator` trait (whose source is
not under src/); per the spec's contract an iterator yields a sorted
sequence of entries, so each side is modelled as the list of its remaining
entries: `is_valid` is non-emptiness, `key`/`value` read the head, `next`
drops it. -/

abbrev Entry := Bytes × Bytes

def headKey : List Entry → Bytes
  | [] => []
  | e :: _ => e.1

def headVal : List Entry → Bytes
  | [] => []
  | e :: _ => e.2

structure TwoMergeIterator where
  a : List Entry
  b : List Entry
deriving DecidableEq

/-- The loop body of `skip_b`: advance `b` while its key equals `ak`. -/
def skipBAux (ak : Bytes) : List Entry → List Entry
  | [] => []
  | e :: rest => if e.1 = ak then skipBAux ak rest else e :: rest

/-- `TwoMergeIterator::skip_b`: when A is valid, advance B past entries
whose key equals A's current key. -/
def TwoMergeIterator.skip_b (it : TwoMergeIterator) : TwoMergeIterator :=
  match it.a with
  | [] => it
  | ea :: _ => { it with b := skipBAux ea.1 it.b }

/-- `TwoMergeIterator::create`. -/
def TwoMergeIterator.create (a b : List Entry) : TwoMergeIterator :=
  TwoMergeIterator.skip_b ⟨a, b⟩

/-- `TwoMergeIterator::is_valid`. -/
def TwoMergeIterator.isValid (it : TwoMergeIterator) : Bool :=
  !it.a.isEmpty || !it.b.isEmpty

/-- `TwoMergeIterator::key`. -/
def TwoMergeIterator.key (it : TwoMergeIterator) : Bytes :=
  if it.a = [] then headKey it.b
  else if it.b = [] then headKey it.a
  else if bLe (headKey it.a) (headKey it.b) then headKey it.a
  else headKey it.b

/-- `TwoMergeIterator::value`. -/
def TwoMergeIterator.value (it : TwoMergeIterator) : Bytes :=
  if it.a = [] then headVal it.b
  else if it.b = [] then headVal it.a
  else if bLe (headKey it.a) (headKey it.b) then headVal it.a
  else headVal it.b

/-- `TwoMergeIterator::next`: advance the preferred side, then `skip_b`. -/
def TwoMergeIterator.next (it : TwoMergeIterator) : TwoMergeIterator :=
  if it.a = [] then { it with b := it.b.tail }
  else if it.b = [] then { it with a := it.a.tail }
  else if bLe (headKey it.a) (headKey it.b) then
    TwoMergeIterator.skip_b { it with a := it.a.tail }
  else
    TwoMergeIterator.skip_b { it with b := it.b.tail }

/-- Drain the merged iterator to exhaustion. -/
def TwoMergeIterator.toList : Nat → TwoMergeIterator → List Entry
  | 0, _ => []
  | fuel + 1, it =>
    if it.isValid then (it.key, it.value) :: TwoMergeIterator.toList fuel it.next
    else []

/-- The specification's reference function: the key-deduplicated merge of
two sorted sequences in which A's entry wins on equal keys (fuel-indexed to
stay executable; `mergePref` supplies sufficient fuel). -/
def mergePrefAux : Nat → List Entry → List Entry → List Entry
  | 0, _, _ => []
  | _ + 1, [], b => b
  | _ + 1, a, [] => a
  | fuel + 1, (ka, va) :: as, (kb, vb) :: bs =>
    if ka = kb then (ka, va) :: mergePrefAux fuel as bs
    else if bLt ka kb then (ka, va) :: mergePrefAux fuel as ((kb, vb) :: bs)
    else (kb, vb) :: mergePrefAux fuel ((ka, va) :: as) bs

def mergePref (a b : List Entry) : List Entry :=
  mergePrefAux (a.length + b.length) a b

theorem mergePrefAux_nil_left (f : Nat) (b : List Entry) (h : b.length ≤ f) :
    mergePrefAux f [] b = b := by
  cases f with
  | zero =>
    cases b with
    | nil => rfl
    | cons e bs => exact absurd h (by simp)
  | succ f => cases b <;> rfl

theorem mergePrefAux_nil_right (f : Nat) (a : List Entry) (h : a.length ≤ f) :
    mergePrefAux f a [] = a := by
  cases f with
  | zero =>
    cases a with
    | nil => rfl
    | cons e as => exact absurd h (by simp)
  | succ f => cases a <;> rfl

theorem mergePrefAux_irrel (f : Nat) :
    ∀ g (a b : List Entry), a.length + b.length ≤ f → a.length + b.length ≤ g →
    mergePrefAux f a b = mergePrefAux g a b := by
  induction f with
  | zero =>
    intro g a b hf _
    have ha : a = [] := by
      cases a with
      | nil => rfl
      | cons e as => exact absurd hf (by simp)
    have hb : b = [] := by
      cases b with
      | nil => rfl
      | cons e bs => simp [ha] at hf
    subst ha
    subst hb
    rw [mergePrefAux_nil_left 0 [] (by simp), mergePrefAux_nil_left g [] (by simp)]
  | succ f ih =>
    intro g a b hf hg
    cases a with
    | nil =>
      rw [mergePrefAux_nil_left (f + 1) b (by simpa using hf),
        mergePrefAux_nil_left g b (by simpa using hg)]
    | cons ea as =>
      cases b with
      | nil =>
        rw [mergePrefAux_nil_right (f + 1) (ea :: as) (by simpa using hf),
          mergePrefAux_nil_right g (ea :: as) (by simpa using hg)]
      | cons eb bs =>
        cases g with
        | zero => simp at hg
        | succ g =>
          obtain ⟨ka, va⟩ := ea
          obtain ⟨kb, vb⟩ := eb
          show (if ka = kb then (ka, va) :: mergePrefAux f as bs
              else if bLt ka kb then (ka, va) :: mergePrefAux f as ((kb, vb) :: bs)
              else (kb, vb) :: mergePrefAux f ((ka, va) :: as) bs)
            = (if ka = kb then (ka, va) :: mergePrefAux g as bs
              else if bLt ka kb then (ka, va) :: mergePrefAux g as ((kb, vb) :: bs)
              else (kb, vb) :: mergePrefAux g ((ka, va) :: as) bs)
          simp only [List.length_cons] at hf hg
          by_cases h1 : ka = kb
          · rw [if_pos h1, if_pos h1, ih g as bs (by omega) (by omega)]
          · rw [if_neg h1, if_neg h1]
            by_cases h2 : bLt ka kb
            · rw [if_pos h2, if_pos h2,
                ih g as ((kb, vb) :: bs) (by simp; omega) (by simp; omega)]
            · rw [if_neg h2, if_neg h2,
                ih g ((ka, va) :: as) bs (by simp; omega) (by simp; omega)]

theorem mergePref_nil_left (b : List Entry) : mergePref [] b = b :=
  mergePrefAux_nil_left _ b (by simp)

theorem mergePref_nil_right (a : List Entry) : mergePref a [] = a :=
  mergePrefAux_nil_right _ a (by simp)

theorem mergePref_cons_eq (ka va kb vb : Bytes) (as bs : List Entry)
    (h : ka = kb) :
    mergePref ((ka, va) :: as) ((kb, vb) :: bs) = (ka, va) :: mergePref as bs := by
  show (if ka = kb then (ka, va) :: mergePrefAux (as.length + 1 + bs.length) as bs
      else _) = _
  rw [if_pos h]
  rw [mergePrefAux_irrel (as.length + 1 + bs.length) (as.length + bs.length) as bs
    (by omega) (by omega)]
  rfl

theorem mergePref_cons_lt (ka va kb vb : Bytes) (as bs : List Entry)
    (hne : ka ≠ kb) (h : bLt ka kb) :
    mergePref ((ka, va) :: as) ((kb, vb) :: bs)
      = (ka, va) :: mergePref as ((kb, vb) :: bs) := by
  show (if ka = kb then _ else if bLt ka kb
      then (ka, va) :: mergePrefAux (as.length + 1 + bs.length) as ((kb, vb) :: bs)
      else _) = _
  rw [if_neg hne, if_pos h]
  rw [mergePrefAux_irrel (as.length + 1 + bs.length)
    (as.length + ((kb, vb) :: bs).length) as ((kb, vb) :: bs)
    (by simp only [List.length_cons]; omega) (by simp only [List.length_cons]; omega)]
  rfl

theorem mergePref_cons_gt (ka va kb vb : Bytes) (as bs : List Entry)
    (hne : ka ≠ kb) (h : ¬ bLt ka kb) :
    mergePref ((ka, va) :: as) ((kb, vb) :: bs)
      = (kb, vb) :: mergePref ((ka, va) :: as) bs := by
  show (if ka = kb then _ else if bLt ka kb then _
      else (kb, vb) :: mergePrefAux (as.length + 1 + bs.length) ((ka, va) :: as) bs)
    = _
  rw [if_neg hne, if_neg h]
  rw [mergePrefAux_irrel (as.length + 1 + bs.length)
    (((ka, va) :: as).length + bs.length) ((ka, va) :: as) bs
    (by simp only [List.length_cons]; omega) (by simp only [List.length_cons]; omega)]
  rfl

theorem skipBAux_length_le (ak : Bytes) (b : List Entry) :
    (skipBAux ak b).length ≤ b.length := by
  induction b with
  | nil => exact le_refl _
  | cons e bs ih =>
    by_cases h : e.1 = ak
    · simp only [skipBAux, if_pos h]
      exact Nat.le_trans ih (by simp)
    · simp only [skipBAux, if_neg h]
      exact le_refl _

theorem skipBAux_head_ne (ak : Bytes) (b : List Entry) :
    ∀ e ∈ (skipBAux ak b).head?, e.1 ≠ ak := by
  induction b with
  | nil => intro e he; cases he
  | cons e0 bs ih =>
    by_cases h : e0.1 = ak
    · simp only [skipBAux, if_pos h]
      exact ih
    · simp only [skipBAux, if_neg h]
      intro e he
      simp only [List.head?_cons, Option.mem_def, Option.some.injEq] at he
      rw [← he]
      exact h

theorem skipBAux_sorted (ak : Bytes) (b : List Entry) (hb : SortedKeys b) :
    SortedKeys (skipBAux ak b) := by
  induction b with
  | nil => exact List.chain'_nil
  | cons e bs ih =>
    by_cases h : e.1 = ak
    · simp only [skipBAux, if_pos h]
      exact ih (List.Chain'.tail hb)
    · simp only [skipBAux, if_neg h]
      exact hb

/-- On a strictly sorted `b`, `skip_b` drops nothing or exactly the one
leading duplicate. -/
theorem skipBAux_sorted_eq (ak : Bytes) (b : List Entry) (hb : SortedKeys b) :
    skipBAux ak b = b ∨ ∃ v bs, b = (ak, v) :: bs ∧ skipBAux ak b = bs := by
  cases b with
  | nil => exact Or.inl rfl
  | cons e bs =>
    by_cases h : e.1 = ak
    · right
      refine ⟨e.2, bs, ?_, ?_⟩
      · rw [show e = (e.1, e.2) from rfl, h]
      · simp only [skipBAux, if_pos h]
        cases bs with
        | nil => rfl
        | cons e2 bs2 =>
          have h2 : bLt e.1 e2.1 := (List.chain'_cons.mp hb).1
          have hne : e2.1 ≠ ak := by
            intro hc
            rw [← h] at hc
            rw [hc] at h2
            exact bLt_irrefl _ h2
          simp only [skipBAux, if_neg hne]
    · exact Or.inl (by simp only [skipBAux, if_neg h])

theorem bLt_asymm {a b : Bytes} (h : bLt a b) : ¬ bLt b a :=
  fun h2 => bLt_irrefl a (bLt_trans h h2)

theorem skip_b_nil_b (x : List Entry) :
    TwoMergeIterator.skip_b ⟨x, []⟩ = ⟨x, []⟩ := by
  cases x with
  | nil => rfl
  | cons e xs => rfl

/-- Draining the merged iterator from any post-`skip_b` state produces the
preferring merge of the two remaining sequences. -/
theorem toList_skip_b (fuel : Nat) :
    ∀ (a b : List Entry), SortedKeys a → SortedKeys b →
    a.length + b.length ≤ fuel →
    TwoMergeIterator.toList fuel (TwoMergeIterator.skip_b ⟨a, b⟩) = mergePref a b := by
  induction fuel with
  | zero =>
    intro a b _ _ hlen
    have ha : a = [] := by
      cases a with
      | nil => rfl
      | cons x xs => simp at hlen
    subst ha
    have hb : b = [] := by
      cases b with
      | nil => rfl
      | cons x xs => simp at hlen
    subst hb
    rfl
  | succ fuel ih =>
    intro a b hA hB hlen
    cases a with
    | nil =>
      rw [show TwoMergeIterator.skip_b ⟨[], b⟩ = ⟨[], b⟩ from rfl, mergePref_nil_left]
      cases b with
      | nil => rfl
      | cons eb bs =>
        rw [show TwoMergeIterator.toList (fuel + 1) ⟨[], eb :: bs⟩
            = (TwoMergeIterator.key ⟨[], eb :: bs⟩, TwoMergeIterator.value ⟨[], eb :: bs⟩)
              :: TwoMergeIterator.toList fuel (TwoMergeIterator.next ⟨[], eb :: bs⟩)
          from rfl]
        rw [show TwoMergeIterator.next ⟨[], eb :: bs⟩ = ⟨[], bs⟩ from rfl]
        rw [show (⟨[], bs⟩ : TwoMergeIterator) = TwoMergeIterator.skip_b ⟨[], bs⟩ from
          rfl]
        rw [ih [] bs List.chain'_nil (List.Chain'.tail hB) (by simp at hlen ⊢; omega)]
        rw [mergePref_nil_left]
        rfl
    | cons ea as =>
      obtain ⟨ka, va⟩ := ea
      have hskip_eq : TwoMergeIterator.skip_b ⟨(ka, va) :: as, b⟩
          = ⟨(ka, va) :: as, skipBAux ka b⟩ := rfl
      rw [hskip_eq]
      have hs2 : SortedKeys (skipBAux ka b) := skipBAux_sorted ka b hB
      have hlen2 : (skipBAux ka b).length ≤ b.length := skipBAux_length_le ka b
      have hm : mergePref ((ka, va) :: as) (skipBAux ka b)
          = mergePref ((ka, va) :: as) b := by
        rcases skipBAux_sorted_eq ka b hB with hcase | ⟨v, bs0, hbeq, hcase⟩
        · rw [hcase]
        · rw [hcase, hbeq]
          rw [mergePref_cons_eq ka va ka v as bs0 rfl]
          cases bs0 with
          | nil =>
            rw [mergePref_nil_right, mergePref_nil_right]
          | cons e2 bs2 =>
            have h2 : bLt ka e2.1 := by
              rw [hbeq] at hB
              exact (List.chain'_cons.mp hB).1
            rw [show e2 = (e2.1, e2.2) from rfl,
              mergePref_cons_lt ka va e2.1 e2.2 as bs2 (bLt_ne h2) h2]
      rw [← hm]
      cases hb2case : skipBAux ka b with
      | nil =>
        rw [show TwoMergeIterator.toList (fuel + 1) ⟨(ka, va) :: as, []⟩
            = (TwoMergeIterator.key ⟨(ka, va) :: as, []⟩,
                TwoMergeIterator.value ⟨(ka, va) :: as, []⟩)
              :: TwoMergeIterator.toList fuel (TwoMergeIterator.next ⟨(ka, va) :: as, []⟩)
          from rfl]
        rw [show TwoMergeIterator.next ⟨(ka, va) :: as, []⟩ = ⟨as, []⟩ from rfl]
        rw [show (⟨as, []⟩ : TwoMergeIterator) = TwoMergeIterator.skip_b ⟨as, []⟩ from
          (skip_b_nil_b as).symm]
        rw [ih as [] (List.Chain'.tail hA) List.chain'_nil (by simp at hlen ⊢; omega)]
        rw [mergePref_nil_right, mergePref_nil_right]
        rfl
      | cons e2 bs2 =>
        obtain ⟨kb, vb⟩ := e2
        have hclean : kb ≠ ka := by
          have := skipBAux_head_ne ka b (kb, vb) (by rw [hb2case]; rfl)
          exact this
        have hs2' := hb2case ▸ hs2
        have hlen2' : bs2.length + 1 ≤ b.length := by
          have := hb2case ▸ hlen2
          simpa using this
        rcases byteCmp_cases ka kb with ⟨_, hlt⟩ | ⟨_, heq⟩ | ⟨_, hgt⟩
        · -- A's key is smaller: emit from A
          have hle : bLe (headKey ((ka, va) :: as)) (headKey ((kb, vb) :: bs2)) :=
            bLe_iff.mpr (Or.inr hlt)
          rw [show TwoMergeIterator.toList (fuel + 1) ⟨(ka, va) :: as, (kb, vb) :: bs2⟩
              = (TwoMergeIterator.key ⟨(ka, va) :: as, (kb, vb) :: bs2⟩,
                  TwoMergeIterator.value ⟨(ka, va) :: as, (kb, vb) :: bs2⟩)
                :: TwoMergeIterator.toList fuel
                    (TwoMergeIterator.next ⟨(ka, va) :: as, (kb, vb) :: bs2⟩)
            from rfl]
          rw [show TwoMergeIterator.key ⟨(ka, va) :: as, (kb, vb) :: bs2⟩ = ka from by
            unfold TwoMergeIterator.key
            rw [if_neg (by simp), if_neg (by simp), if_pos hle]
            rfl]
          rw [show TwoMergeIterator.value ⟨(ka, va) :: as, (kb, vb) :: bs2⟩ = va from by
            unfold TwoMergeIterator.value
            rw [if_neg (by simp), if_neg (by simp), if_pos hle]
            rfl]
          rw [show TwoMergeIterator.next ⟨(ka, va) :: as, (kb, vb) :: bs2⟩
              = TwoMergeIterator.skip_b ⟨as, (kb, vb) :: bs2⟩ from by
            unfold TwoMergeIterator.next
            rw [if_neg (by simp), if_neg (by simp), if_pos hle]
            rfl]
          rw [ih as ((kb, vb) :: bs2) (List.Chain'.tail hA) hs2'
            (by simp at hlen ⊢; omega)]
          rw [mergePref_cons_lt ka va kb vb as bs2 (fun hc => hclean hc.symm) hlt]
        · exact absurd heq.symm hclean
        · -- B's key is smaller: emit from B
          have hnle : ¬ bLe (headKey ((ka, va) :: as)) (headKey ((kb, vb) :: bs2)) :=
            not_bLe_of_bLt hgt
          rw [show TwoMergeIterator.toList (fuel + 1) ⟨(ka, va) :: as, (kb, vb) :: bs2⟩
              = (TwoMergeIterator.key ⟨(ka, va) :: as, (kb, vb) :: bs2⟩,
                  TwoMergeIterator.value ⟨(ka, va) :: as, (kb, vb) :: bs2⟩)
                :: TwoMergeIterator.toList fuel
                    (TwoMergeIterator.next ⟨(ka, va) :: as, (kb, vb) :: bs2⟩)
            from rfl]
          rw [show TwoMergeIterator.key ⟨(ka, va) :: as, (kb, vb) :: bs2⟩ = kb from by
            unfold TwoMergeIterator.key
            rw [if_neg (by simp), if_neg (by simp), if_neg hnle]
            rfl]
          rw [show TwoMergeIterator.value ⟨(ka, va) :: as, (kb, vb) :: bs2⟩ = vb from by
            unfold TwoMergeIterator.value
            rw [if_neg (by simp), if_neg (by simp), if_neg hnle]
            rfl]
          rw [show TwoMergeIterator.next ⟨(ka, va) :: as, (kb, vb) :: bs2⟩
              = TwoMergeIterator.skip_b ⟨(ka, va) :: as, bs2⟩ from by
            unfold TwoMergeIterator.next
            rw [if_neg (by simp), if_neg (by simp), if_neg hnle]
            rfl]
          rw [ih ((ka, va) :: as) bs2 hA (List.Chain'.tail hs2')
            (by simp at hlen ⊢; omega)]
          rw [mergePref_cons_gt ka va kb vb as bs2 (fun hc => hclean hc.symm)
            (bLt_asymm hgt)]

/-- The head of a preferring merge comes from one of the two inputs. -/
theorem mergePref_head (a b : List Entry) (e : Entry)
    (h : (mergePref a b).head? = some e) :
    a.head? = some e ∨ b.head? = some e := by
  cases a with
  | nil =>
    rw [mergePref_nil_left] at h
    exact Or.inr h
  | cons ea as =>
    cases b with
    | nil =>
      rw [mergePref_nil_right] at h
      exact Or.inl h
    | cons eb bs =>
      obtain ⟨ka, va⟩ := ea
      obtain ⟨kb, vb⟩ := eb
      by_cases heq : ka = kb
      · rw [mergePref_cons_eq ka va kb vb as bs heq] at h
        exact Or.inl h
      · by_cases hlt : bLt ka kb
        · rw [mergePref_cons_lt ka va kb vb as bs heq hlt] at h
          exact Or.inl h
        · rw [mergePref_cons_gt ka va kb vb as bs heq hlt] at h
          exact Or.inr h

/-- A preferring merge of sorted inputs is sorted. -/
theorem mergePref_sorted (n : Nat) :
    ∀ (a b : List Entry), a.length + b.length ≤ n →
    SortedKeys a → SortedKeys b → SortedKeys (mergePref a b) := by
  induction n with
  | zero =>
    intro a b hlen hA hB
    have ha : a = [] := by
      cases a with
      | nil => rfl
      | cons x xs => simp at hlen
    subst ha
    rw [mergePref_nil_left]
    exact hB
  | succ n ih =>
    intro a b hlen hA hB
    cases a with
    | nil =>
      rw [mergePref_nil_left]
      exact hB
    | cons ea as =>
      cases b with
      | nil =>
        rw [mergePref_nil_right]
        exact hA
      | cons eb bs =>
        obtain ⟨ka, va⟩ := ea
        obtain ⟨kb, vb⟩ := eb
        have hAhead := (List.chain'_cons'.mp hA).1
        have hAtail := (List.chain'_cons'.mp hA).2
        have hBhead := (List.chain'_cons'.mp hB).1
        have hBtail := (List.chain'_cons'.mp hB).2
        by_cases heq : ka = kb
        · rw [mergePref_cons_eq ka va kb vb as bs heq]
          show List.Chain' _ ((ka, va) :: mergePref as bs)
          rw [List.chain'_cons']
          refine ⟨?_, ih as bs (by simp at hlen ⊢; omega) hAtail hBtail⟩
          intro y hy
          rcases mergePref_head as bs y hy with hh | hh
          · exact hAhead y hh
          · have := hBhead y hh
            show bLt ka y.1
            rw [heq]
            exact this
        · by_cases hlt : bLt ka kb
          · rw [mergePref_cons_lt ka va kb vb as bs heq hlt]
            show List.Chain' _ ((ka, va) :: mergePref as ((kb, vb) :: bs))
            rw [List.chain'_cons']
            refine ⟨?_, ih as ((kb, vb) :: bs) (by simp at hlen ⊢; omega) hAtail hB⟩
            intro y hy
            rcases mergePref_head as ((kb, vb) :: bs) y hy with hh | hh
            · exact hAhead y hh
            · simp only [List.head?_cons, Option.mem_def, Option.some.injEq] at hh
              rw [← hh]
              exact hlt
          · have hgt : bLt kb ka := by
              rcases byteCmp_cases ka kb with ⟨_, h1⟩ | ⟨_, h1⟩ | ⟨_, h1⟩
              · exact absurd h1 hlt
              · exact absurd h1 heq
              · exact h1
            rw [mergePref_cons_gt ka va kb vb as bs heq hlt]
            show List.Chain' _ ((kb, vb) :: mergePref ((ka, va) :: as) bs)
            rw [List.chain'_cons']
            refine ⟨?_, ih ((ka, va) :: as) bs (by simp at hlen ⊢; omega) hA hBtail⟩
            intro y hy
            rcases mergePref_head ((ka, va) :: as) bs y hy with hh | hh
            · simp only [List.head?_cons, Option.mem_def, Option.some.injEq] at hh
              rw [← hh]
              exact hgt
            · exact hBhead y hh

/-- The `skip_b` postcondition: when both sides are valid their current
keys differ. -/
def TwoMergeIterator.clean (it : TwoMergeIterator) : Prop :=
  it.a ≠ [] → it.b ≠ [] → headKey it.a ≠ headKey it.b

theorem clean_skip_b (a b : List Entry) :
    TwoMergeIterator.clean (TwoMergeIterator.skip_b ⟨a, b⟩) := by
  cases a with
  | nil => exact fun ha _ => absurd rfl ha
  | cons ea as =>
    intro _ hb
    rw [show (TwoMergeIterator.skip_b ⟨ea :: as, b⟩).b = skipBAux ea.1 b from rfl] at hb ⊢
    cases hcase : skipBAux ea.1 b with
    | nil => exact absurd hcase hb
    | cons e2 bs2 =>
      have := skipBAux_head_ne ea.1 b e2 (by rw [hcase]; rfl)
      show headKey (ea :: as) ≠ headKey (e2 :: bs2)
      exact fun hc => this hc.symm

theorem clean_next (it : TwoMergeIterator) :
    TwoMergeIterator.clean it.next := by
  unfold TwoMergeIterator.next
  by_cases ha : it.a = []
  · rw [if_pos ha]
    exact fun hc _ => absurd ha hc
  · rw [if_neg ha]
    by_cases hb : it.b = []
    · rw [if_pos hb]
      exact fun _ hc => absurd hb hc
    · rw [if_neg hb]
      by_cases hle : bLe (headKey it.a) (headKey it.b)
      · rw [if_pos hle]
        exact clean_skip_b it.a.tail it.b
      · rw [if_neg hle]
        exact clean_skip_b it.a it.b.tail

/-- C8: for every pair of independently sorted iterators (modelled as their
strictly ascending entry sequences), the `TwoMergeIterator` drained from
construction to exhaustion yields exactly the key-deduplicated sorted merge
in which A's entry wins on every key present in both; and after
construction and after every `next`, whenever both sides are valid, B's
current key differs from A's current key (`skip_b` has moved B past the
duplicate at its cursor). -/
theorem C8_two_merge_iterator (A B : List Entry)
    (hA : SortedKeys A) (hB : SortedKeys B) :
    TwoMergeIterator.toList (A.length + B.length) (TwoMergeIterator.create A B)
      = mergePref A B
    ∧ SortedKeys (mergePref A B)
    ∧ ∀ j : Nat,
        TwoMergeIterator.clean
          (TwoMergeIterator.next^[j] (TwoMergeIterator.create A B)) := by
  refine ⟨?_, ?_, ?_⟩
  · exact toList_skip_b (A.length + B.length) A B hA hB (le_refl _)
  · exact mergePref_sorted (A.length + B.length) A B (le_refl _) hA hB
  · intro j
    induction j with
    | zero => exact clean_skip_b A B
    | succ j _ =>
      rw [Function.iterate_succ_apply']
      exact clean_next _

/-- Two small overlapping sorted runs for the C8 witness: keys "1","2","3"
on A and "2","4" on B; "2" must come from A. -/
def exRunA : List Entry := [([49], [65]), ([50], [66]), ([51], [67])]

def exRunB : List Entry := [([50], [98]), ([52], [99])]

/-- Witness for C8: the merged output of the two runs and the clean
invariant at every step, via the theorem at this concrete input. -/
theorem C8_two_merge_iterator_witness :
    SortedKeys exRunA ∧ SortedKeys exRunB
    ∧ (TwoMergeIterator.toList (exRunA.length + exRunB.length)
          (TwoMergeIterator.create exRunA exRunB)
        = mergePref exRunA exRunB
      ∧ SortedKeys (mergePref exRunA exRunB)
      ∧ ∀ j : Nat,
          TwoMergeIterator.clean
            (TwoMergeIterator.next^[j] (TwoMergeIterator.create exRunA exRunB)))
    ∧ mergePref exRunA exRunB
        = [([49], [65]), ([50], [66]), ([51], [67]), ([52], [99])] :=
  ⟨by decide, by decide,
    C8_two_merge_iterator exRunA exRunB (by decide) (by decide), by decide⟩

end MiniLsm
